import Mathlib

/-!
Verification development for the dice-arithmetic simulator
(`simulateDiceTargets` in `index.js`): the reachability search
`canMakeTarget`, its cache-key encoding, and the persistent cache's
load/merge/save lifecycle.

Modelling conventions for the shallow embedding:

* JavaScript numbers are modelled as exact rationals (`ℚ`).  Dice values
  and targets are small integers; derived values come from `+ - * /`.
* `String(number)` (used implicitly by `Array.prototype.sort` and by
  `Array.prototype.join`) is modelled by `ratToStr`: the usual decimal
  numeral for integral values and `num/den` for non-integral ones.  The
  properties that matter — injectivity and absence of the delimiter
  characters `,` and `|` — hold for the real JavaScript formatting as
  well (shortest round-trip representation over digits, `-`, `.`, `e`).
* The default `Array.prototype.sort` comparator converts elements to
  strings and compares them by UTF-16 code units; `charLe` is that
  comparison on the underlying character lists.
* JavaScript `Map` objects are modelled as association lists in
  insertion order; `Map.prototype.set` overwrites in place
  (`mapSet`), `Map.prototype.get`/`has` is `List.lookup`.
* gzip compression is modelled as the identity on the serialized text
  (it is lossless and invertible, and no claim is about the byte
  format itself).
-/

/-- A JavaScript `Map` from cache-key strings to booleans, in insertion
order (the model of `globalCache`, `memo` and `existing`). -/
abbrev Store := List (String × Bool)

/-- `Map.prototype.set`: overwrite the entry in place if the key is
present, otherwise append it. -/
def mapSet (k : String) (v : Bool) : Store → Store
  | [] => [(k, v)]
  | (k', v') :: rest => if k' = k then (k, v) :: rest else (k', v') :: mapSet k v rest

/-- The character for a decimal digit. -/
def digitChar (d : ℕ) : Char := Char.ofNat (48 + d)

/-- Decimal digits of a positive natural, most significant first
(`fuel` bounds the recursion; `fuel = n` is always enough). -/
def natCharsAux : ℕ → ℕ → List Char
  | 0, _ => []
  | _ + 1, 0 => []
  | fuel + 1, n + 1 => natCharsAux fuel ((n + 1) / 10) ++ [digitChar ((n + 1) % 10)]

/-- Decimal numeral of a natural number (the model of JavaScript
`String(n)` for naturals). -/
def natToStr (n : ℕ) : String := if n = 0 then "0" else String.mk (natCharsAux n n)

/-- Decimal numeral of an integer. -/
def intToStr (i : ℤ) : String :=
  if i < 0 then "-" ++ natToStr i.natAbs else natToStr i.toNat

/-- The model of JavaScript number-to-string conversion on exact
rationals: integral values print as integers; non-integral values print
as `num/den` (deterministic, injective, and free of `,`, `|`, `"`,
`\` — the properties the real float formatting also has). -/
def ratToStr (q : ℚ) : String :=
  if q.den = 1 then intToStr q.num else intToStr q.num ++ "/" ++ natToStr q.den

/-- Lexicographic comparison of character lists: the model of the
UTF-16 code-unit comparison used by the default `sort` comparator. -/
def charLe : List Char → List Char → Bool
  | [], _ => true
  | _ :: _, [] => false
  | a :: as, b :: bs => if a < b then true else if b < a then false else charLe as bs

/-- The default `Array.prototype.sort` ordering on numbers: compare
their string representations lexicographically. -/
def sortRel (a b : ℚ) : Prop := charLe (ratToStr a).data (ratToStr b).data = true

instance : DecidableRel sortRel := fun _ _ => instDecidableEqBool _ _

/-- `numbers.slice().sort()`: sort a copy of the array with the default
(string-comparison) comparator. -/
def sortJS (l : List ℚ) : List ℚ := List.insertionSort sortRel l

/-- `arr.join(",")`. -/
def joinCommaStr : List String → String
  | [] => ""
  | [s] => s
  | s :: rest => s ++ "," ++ joinCommaStr rest

/-- The cache key of `canMakeTarget`:
`numbers.slice().sort().join(",") + "|" + target`. -/
def encodeKey (ns : List ℚ) (t : ℚ) : String :=
  joinCommaStr ((sortJS ns).map ratToStr) ++ "|" ++ ratToStr t

/-- The base-case tolerance `1e-9`. -/
def tol : ℚ := 1 / 1000000000

/-- The candidate derived values for an ordered pair `(a, b)`:
`[a + b, a - b, b - a, a * b]`, then `a / b` pushed only when `b ≠ 0`,
then `b / a` pushed only when `a ≠ 0`. -/
def nextVals (a b : ℚ) : List ℚ :=
  [a + b, a - b, b - a, a * b] ++
    (if b ≠ 0 then [a / b] else []) ++ (if a ≠ 0 then [b / a] else [])

/-- `numbers.filter((_, idx) => idx !== i && idx !== j)`. -/
def removeTwo (ns : List ℚ) (i j : ℕ) : List ℚ :=
  ((ns.enum.filter fun p => p.1 ≠ i ∧ p.1 ≠ j).map Prod.snd)

/-- Index-shifting form of `removeTwo` (indices as integers so that a
removed position never reappears after shifting); proofs go through
this form. -/
def removeTwoInt : List ℚ → ℤ → ℤ → List ℚ
  | [], _, _ => []
  | x :: xs, i, j =>
    (if i = 0 ∨ j = 0 then [] else [x]) ++ removeTwoInt xs (i - 1) (j - 1)

/-- All multisets passed to recursive calls, in loop order: for each
ordered pair `(i, j)` of distinct positions and each candidate value
`v`, the array `[...rest, v]`. -/
def branches (ns : List ℚ) : List (List ℚ) :=
  (List.range ns.length).flatMap fun i =>
    (List.range ns.length).flatMap fun j =>
      if i = j then []
      else (nextVals (ns.getD i 0) (ns.getD j 0)).map fun v => removeTwo ns i j ++ [v]

theorem removeTwo_eq_int (ns : List ℚ) (i j : ℕ) :
    removeTwo ns i j = removeTwoInt ns i j := by
  have key : ∀ (l : List ℚ) (k : ℕ),
      ((List.enumFrom k l).filter fun p => p.1 ≠ i ∧ p.1 ≠ j).map Prod.snd =
        removeTwoInt l ((i : ℤ) - k) ((j : ℤ) - k) := by
    intro l
    induction l with
    | nil => intro k; simp [removeTwoInt]
    | cons x xs ih =>
      intro k
      rw [List.enumFrom_cons, List.filter_cons]
      have e1 : (i : ℤ) - k - 1 = (i : ℤ) - ((k + 1 : ℕ) : ℤ) := by push_cast; ring
      have e2 : (j : ℤ) - k - 1 = (j : ℤ) - ((k + 1 : ℕ) : ℤ) := by push_cast; ring
      have hiff : ((i : ℤ) - k = 0 ∨ (j : ℤ) - k = 0) ↔ ¬(k ≠ i ∧ k ≠ j) := by
        constructor
        · rintro (h | h)
          · have hik : i = k := by exact_mod_cast sub_eq_zero.mp h
            exact fun hc => hc.1 hik.symm
          · have hjk : j = k := by exact_mod_cast sub_eq_zero.mp h
            exact fun hc => hc.2 hjk.symm
        · intro h
          by_cases h1 : k = i
          · left; rw [h1]; ring
          · right
            have h2 : k = j := by
              by_contra h2
              exact h ⟨h1, h2⟩
            rw [h2]; ring
      by_cases hc : (i : ℤ) - k = 0 ∨ (j : ℤ) - k = 0
      · have hdec : decide (k ≠ i ∧ k ≠ j) = false :=
          decide_eq_false_iff_not.mpr (hiff.mp hc)
        simp only [removeTwoInt, if_pos hc, hdec, Bool.false_eq_true, if_false,
          List.nil_append]
        rw [e1, e2]
        exact ih (k + 1)
      · have hcond : k ≠ i ∧ k ≠ j := not_not.mp fun hn => hc (hiff.mpr hn)
        have hdec : decide (k ≠ i ∧ k ≠ j) = true := decide_eq_true hcond
        simp only [removeTwoInt, if_neg hc, hdec, if_true, List.singleton_append,
          List.map_cons]
        rw [e1, e2]
        exact congrArg (x :: ·) (ih (k + 1))
  have h0 := key ns 0
  simpa [removeTwo, List.enum] using h0

/-- Removal of a single position (what `removeTwoInt` degenerates to
once the other index has been shifted below zero). -/
def removeOneInt : List ℚ → ℤ → List ℚ
  | [], _ => []
  | x :: xs, j => (if j = 0 then [] else [x]) ++ removeOneInt xs (j - 1)

theorem removeTwoInt_neg_left (ns : List ℚ) (i j : ℤ) (hi : i < 0) :
    removeTwoInt ns i j = removeOneInt ns j := by
  induction ns generalizing i j with
  | nil => rfl
  | cons x xs ih =>
    have hne : ¬(i = 0) := by omega
    simp only [removeTwoInt, removeOneInt, hne, false_or]
    rw [ih (i - 1) (j - 1) (by omega)]

theorem removeOneInt_neg (ns : List ℚ) (j : ℤ) (hj : j < 0) :
    removeOneInt ns j = ns := by
  induction ns generalizing j with
  | nil => rfl
  | cons x xs ih =>
    have hne : ¬(j = 0) := by omega
    simp only [removeOneInt, hne, if_false, List.singleton_append, List.cons.injEq,
      true_and]
    exact ih (j - 1) (by omega)

theorem removeTwoInt_comm (ns : List ℚ) (i j : ℤ) :
    removeTwoInt ns i j = removeTwoInt ns j i := by
  induction ns generalizing i j with
  | nil => rfl
  | cons x xs ih => simp only [removeTwoInt, or_comm, ih (i - 1) (j - 1)]

theorem perm_removeOneInt (ns : List ℚ) (j : ℕ) (hj : j < ns.length) :
    ns.Perm (ns.getD j 0 :: removeOneInt ns j) := by
  induction ns generalizing j with
  | nil => simp at hj
  | cons x xs ih =>
    cases j with
    | zero =>
      have h1 : removeOneInt (x :: xs) ((0 : ℕ) : ℤ) = xs := by
        simp only [removeOneInt, Nat.cast_zero, if_pos rfl, List.nil_append]
        exact removeOneInt_neg xs (0 - 1) (by omega)
      rw [h1, List.getD_cons_zero]
    | succ jj =>
      have hne : ¬((jj + 1 : ℕ) : ℤ) = 0 := by push_cast; omega
      have hcast : ((jj + 1 : ℕ) : ℤ) - 1 = (jj : ℤ) := by push_cast; ring
      simp only [removeOneInt, hne, if_false, List.singleton_append,
        List.getD_cons_succ, hcast]
      have hlt : jj < xs.length := by simpa using hj
      exact ((ih jj hlt).cons x).trans
        (List.Perm.swap (xs.getD jj 0) x (removeOneInt xs (jj : ℤ)))

theorem perm_removeTwoInt_lt (ns : List ℚ) (i j : ℕ) (hij : i < j)
    (hj : j < ns.length) :
    ns.Perm (ns.getD i 0 :: ns.getD j 0 :: removeTwoInt ns i j) := by
  induction ns generalizing i j with
  | nil => simp at hj
  | cons x xs ih =>
    cases i with
    | zero =>
      obtain ⟨jj, rfl⟩ : ∃ jj, j = jj + 1 := ⟨j - 1, by omega⟩
      have hcast : ((jj + 1 : ℕ) : ℤ) - 1 = (jj : ℤ) := by push_cast; ring
      simp only [removeTwoInt, Nat.cast_zero, if_pos (Or.inl rfl), List.nil_append,
        List.getD_cons_zero, List.getD_cons_succ, hcast]
      rw [removeTwoInt_neg_left xs (0 - 1) (jj : ℤ) (by omega)]
      have hlt : jj < xs.length := by simpa using hj
      exact (perm_removeOneInt xs jj hlt).cons x
    | succ ii =>
      obtain ⟨jj, rfl⟩ : ∃ jj, j = jj + 1 := ⟨j - 1, by omega⟩
      have hne : ¬(((ii + 1 : ℕ) : ℤ) = 0 ∨ ((jj + 1 : ℕ) : ℤ) = 0) := by
        push_cast; omega
      have hc1 : ((ii + 1 : ℕ) : ℤ) - 1 = (ii : ℤ) := by push_cast; ring
      have hc2 : ((jj + 1 : ℕ) : ℤ) - 1 = (jj : ℤ) := by push_cast; ring
      simp only [removeTwoInt, hne, if_false, List.singleton_append,
        List.getD_cons_succ, hc1, hc2]
      have hlt : jj < xs.length := by simpa using hj
      have hij' : ii < jj := by omega
      set a := xs.getD ii 0
      set b := xs.getD jj 0
      set R := removeTwoInt xs (ii : ℤ) (jj : ℤ)
      exact ((ih ii jj hij' hlt).cons x).trans
        ((List.Perm.swap a x (b :: R)).trans ((List.Perm.swap b x R).cons a))

/-- Removing two distinct positions and putting the two removed values
back in front is a permutation of the original list. -/
theorem perm_removeTwo (ns : List ℚ) (i j : ℕ) (hij : i ≠ j)
    (hi : i < ns.length) (hj : j < ns.length) :
    ns.Perm (ns.getD i 0 :: ns.getD j 0 :: removeTwo ns i j) := by
  rw [removeTwo_eq_int]
  rcases Nat.lt_or_ge i j with h | h
  · exact perm_removeTwoInt_lt ns i j h hj
  · have h' : j < i := by omega
    have hperm := perm_removeTwoInt_lt ns j i h' hi
    rw [removeTwoInt_comm]
    exact hperm.trans
      (List.Perm.swap (ns.getD i 0) (ns.getD j 0) (removeTwoInt ns (j : ℤ) (i : ℤ)))

/-- Membership in `branches` unpacked: a branch is `rest ++ [v]` for an
ordered pair of distinct positions and a candidate value. -/
theorem mem_branches_iff (ns : List ℚ) (b : List ℚ) :
    b ∈ branches ns ↔ ∃ i j, i < ns.length ∧ j < ns.length ∧ i ≠ j ∧
      ∃ v ∈ nextVals (ns.getD i 0) (ns.getD j 0), b = removeTwo ns i j ++ [v] := by
  constructor
  · intro hb
    rcases List.mem_flatMap.mp hb with ⟨i, hi, hb⟩
    rcases List.mem_flatMap.mp hb with ⟨j, hj, hb⟩
    by_cases hij : i = j
    · rw [if_pos hij] at hb; simp at hb
    · rw [if_neg hij] at hb
      rcases List.mem_map.mp hb with ⟨v, hv, hb⟩
      exact ⟨i, j, List.mem_range.mp hi, List.mem_range.mp hj, hij, v, hv, hb.symm⟩
  · rintro ⟨i, j, hi, hj, hij, v, hv, rfl⟩
    refine List.mem_flatMap.mpr ⟨i, List.mem_range.mpr hi, ?_⟩
    refine List.mem_flatMap.mpr ⟨j, List.mem_range.mpr hj, ?_⟩
    rw [if_neg hij]
    exact List.mem_map.mpr ⟨v, hv, rfl⟩

/-- Every recursive call receives a multiset exactly one element
smaller than its caller's. -/
theorem length_of_mem_branches (ns : List ℚ) (b : List ℚ) (hb : b ∈ branches ns) :
    b.length + 1 = ns.length := by
  rcases (mem_branches_iff ns b).mp hb with ⟨i, j, hi, hj, hij, v, _, rfl⟩
  have hperm := perm_removeTwo ns i j hij hi hj
  have hlen := hperm.length_eq
  simp only [List.length_cons] at hlen
  simp only [List.length_append, List.length_singleton]
  omega

theorem length_lt_of_mem_branches (ns : List ℚ) (b : List ℚ)
    (hb : b ∈ branches ns) : b.length < ns.length := by
  have := length_of_mem_branches ns b hb
  omega

/-- The reachability search `canMakeTarget(numbers, target, memo)` with
the surrounding `globalCache` threaded explicitly.  Returns the boolean
result together with the final transient memo and the final persistent
store.  The nested `for` loops with early `return true` are rendered as
a fold over `branches` whose accumulator stops changing once it holds
`true` (observationally identical: after a success no further
recursive call runs and no further state changes). -/
def canMakeTarget (ns : List ℚ) (t : ℚ) (memo g : Store) : Bool × Store × Store :=
  let key := encodeKey ns t
  match List.lookup key g with
  | some v => (v, memo, g)
  | none =>
    match List.lookup key memo with
    | some v => (v, memo, g)
    | none =>
      if ns.length = 1 then
        let r := decide (|ns.getD 0 0 - t| < tol)
        (r, mapSet key r memo, mapSet key r g)
      else
        let st := (branches ns).attach.foldl
          (fun acc b =>
            if acc.1 then acc else canMakeTarget b.1 t acc.2.1 acc.2.2)
          (false, memo, g)
        (st.1, mapSet key st.1 st.2.1, mapSet key st.1 st.2.2)
termination_by ns.length
decreasing_by exact length_lt_of_mem_branches ns b.1 b.2

/-- The side-effect-free value of the search against a fixed snapshot
`c` of the persistent store: consult `c` under the encoded key, else
compute the base case or the existential over `branches`.  This is the
specification the stateful `canMakeTarget` is proved to follow. -/
def pureReach (c : Store) (ns : List ℚ) (t : ℚ) : Bool :=
  match List.lookup (encodeKey ns t) c with
  | some v => v
  | none =>
    if ns.length = 1 then decide (|ns.getD 0 0 - t| < tol)
    else (branches ns).attach.any fun b => pureReach c b.1 t
termination_by ns.length
decreasing_by exact length_lt_of_mem_branches ns b.1 b.2

theorem charLe_refl (x : List Char) : charLe x x = true := by
  induction x with
  | nil => rfl
  | cons a as ih => simp [charLe, ih]

theorem charLe_total (x y : List Char) : charLe x y = true ∨ charLe y x = true := by
  induction x generalizing y with
  | nil => left; rfl
  | cons a as ih =>
    cases y with
    | nil => right; rfl
    | cons b bs =>
      rcases lt_trichotomy a b with h | h | h
      · left; simp [charLe, h]
      · subst h
        rcases ih bs with h' | h'
        · left; simp [charLe, lt_irrefl, h']
        · right; simp [charLe, lt_irrefl, h']
      · right; simp [charLe, h]

theorem charLe_antisymm (x y : List Char) (hxy : charLe x y = true)
    (hyx : charLe y x = true) : x = y := by
  induction x generalizing y with
  | nil =>
    cases y with
    | nil => rfl
    | cons b bs => simp [charLe] at hyx
  | cons a as ih =>
    cases y with
    | nil => simp [charLe] at hxy
    | cons b bs =>
      rcases lt_trichotomy a b with h | h | h
      · exfalso
        simp [charLe, h, asymm h] at hyx
      · subst h
        simp only [charLe, lt_irrefl, if_false] at hxy hyx
        rw [ih bs hxy hyx]
      · exfalso
        simp [charLe, h, asymm h] at hxy

theorem charLe_trans (x y z : List Char) (hxy : charLe x y = true)
    (hyz : charLe y z = true) : charLe x z = true := by
  induction x generalizing y z with
  | nil => rfl
  | cons a as ih =>
    cases y with
    | nil => simp [charLe] at hxy
    | cons b bs =>
      cases z with
      | nil => simp [charLe] at hyz
      | cons c cs =>
        simp only [charLe] at hxy hyz ⊢
        rcases lt_trichotomy a b with hab | hab | hab
        · rcases lt_trichotomy b c with hbc | hbc | hbc
          · simp [lt_trans hab hbc]
          · subst hbc; simp [hab]
          · exfalso; simp [hbc, asymm hbc] at hyz
        · subst hab
          rcases lt_trichotomy a c with hac | hac | hac
          · simp [hac]
          · subst hac
            simp only [lt_irrefl, if_false] at hxy hyz ⊢
            exact ih bs cs hxy hyz
          · exfalso; simp [hac, asymm hac] at hyz
        · exfalso; simp [hab, asymm hab] at hxy

/-- Numeric value of a digit string (used only to prove that the
numeral printing is injective). -/
def parseNatChars (l : List Char) : ℕ := l.foldl (fun a c => 10 * a + (c.toNat - 48)) 0

theorem parseNatChars_append (l : List Char) (c : Char) :
    parseNatChars (l ++ [c]) = 10 * parseNatChars l + (c.toNat - 48) := by
  simp [parseNatChars, List.foldl_append]

theorem digitChar_toNat (d : ℕ) (hd : d < 10) : (digitChar d).toNat = 48 + d := by
  revert hd
  revert d
  decide

theorem digitChar_notin_special (d : ℕ) (hd : d < 10) :
    digitChar d ≠ '-' ∧ digitChar d ≠ '/' ∧ digitChar d ≠ ',' ∧
      digitChar d ≠ '|' ∧ digitChar d ≠ '"' ∧ digitChar d ≠ '\\' := by
  revert hd
  revert d
  decide

theorem natCharsAux_parse (fuel n : ℕ) (hpos : 0 < n) (hle : n ≤ fuel) :
    parseNatChars (natCharsAux fuel n) = n := by
  induction fuel generalizing n with
  | zero => omega
  | succ f ih =>
    obtain ⟨m, rfl⟩ : ∃ m, n = m + 1 := ⟨n - 1, by omega⟩
    rw [natCharsAux, parseNatChars_append]
    rw [digitChar_toNat ((m + 1) % 10) (Nat.mod_lt _ (by norm_num))]
    by_cases hq : (m + 1) / 10 = 0
    · rw [hq]
      have : parseNatChars (natCharsAux f 0) = 0 := by cases f <;> rfl
      rw [this]
      omega
    · have hq' : 0 < (m + 1) / 10 := Nat.pos_of_ne_zero hq
      have hle' : (m + 1) / 10 ≤ f := by
        have := Nat.div_lt_self (Nat.succ_pos m) (by norm_num : 1 < 10)
        omega
      rw [ih _ hq' hle']
      omega

theorem natCharsAux_ne_nil (fuel n : ℕ) (hpos : 0 < n) (hle : n ≤ fuel) :
    natCharsAux fuel n ≠ [] := by
  obtain ⟨m, rfl⟩ : ∃ m, n = m + 1 := ⟨n - 1, by omega⟩
  obtain ⟨f, rfl⟩ : ∃ f, fuel = f + 1 := ⟨fuel - 1, by omega⟩
  rw [natCharsAux]
  simp

theorem mem_natCharsAux (fuel n : ℕ) (c : Char) (hc : c ∈ natCharsAux fuel n) :
    ∃ d, d < 10 ∧ c = digitChar d := by
  induction fuel generalizing n with
  | zero => simp [natCharsAux] at hc
  | succ f ih =>
    cases n with
    | zero => simp [natCharsAux] at hc
    | succ m =>
      rw [natCharsAux] at hc
      rcases List.mem_append.mp hc with h | h
      · exact ih _ h
      · refine ⟨(m + 1) % 10, Nat.mod_lt _ (by norm_num), ?_⟩
        simpa using h

theorem mem_natToStr (n : ℕ) (c : Char) (hc : c ∈ (natToStr n).data) :
    ∃ d, d < 10 ∧ c = digitChar d := by
  by_cases h : n = 0
  · subst h
    simp only [natToStr, if_pos rfl] at hc
    refine ⟨0, by norm_num, ?_⟩
    have : c = '0' := by simpa using hc
    rw [this]
    rfl
  · simp only [natToStr, if_neg h] at hc
    exact mem_natCharsAux n n c hc

theorem natToStr_ne_empty (n : ℕ) : (natToStr n).data ≠ [] := by
  by_cases h : n = 0
  · subst h; simp [natToStr]
  · simp only [natToStr, if_neg h]
    exact natCharsAux_ne_nil n n (Nat.pos_of_ne_zero h) le_rfl

theorem parseNatChars_natToStr (n : ℕ) : parseNatChars (natToStr n).data = n := by
  by_cases h : n = 0
  · subst h; rfl
  · simp only [natToStr, if_neg h]
    exact natCharsAux_parse n n (Nat.pos_of_ne_zero h) le_rfl

theorem natToStr_inj (n m : ℕ) (h : natToStr n = natToStr m) : n = m := by
  have := congrArg (fun s => parseNatChars s.data) h
  simpa [parseNatChars_natToStr] using this

theorem data_append (s t : String) : (s ++ t).data = s.data ++ t.data :=
  String.data_append s t

theorem mem_intToStr (i : ℤ) (c : Char) (hc : c ∈ (intToStr i).data) :
    c = '-' ∨ ∃ d, d < 10 ∧ c = digitChar d := by
  by_cases h : i < 0
  · simp only [intToStr, if_pos h, data_append] at hc
    rcases List.mem_append.mp hc with h' | h'
    · left; simpa using h'
    · right; exact mem_natToStr _ c h'
  · simp only [intToStr, if_neg h] at hc
    right; exact mem_natToStr _ c hc

theorem intToStr_no_minus_of_nonneg (i : ℤ) (h : ¬i < 0) :
    '-' ∉ (intToStr i).data := by
  intro hc
  simp only [intToStr, if_neg h] at hc
  rcases mem_natToStr _ _ hc with ⟨d, hd, hd'⟩
  exact (digitChar_notin_special d hd).1 hd'.symm

theorem intToStr_inj (i j : ℤ) (h : intToStr i = intToStr j) : i = j := by
  by_cases hi : i < 0 <;> by_cases hj : j < 0
  · have hdata := congrArg String.data h
    simp only [intToStr, if_pos hi, if_pos hj, data_append] at hdata
    simp only [List.cons_append, List.nil_append, List.cons.injEq, true_and] at hdata
    have := natToStr_inj _ _ (String.ext hdata)
    omega
  · exfalso
    have hdata := congrArg String.data h
    simp only [intToStr, if_pos hi, if_neg hj, data_append] at hdata
    simp only [List.cons_append, List.nil_append] at hdata
    have hmem : '-' ∈ (natToStr j.toNat).data := by
      rw [← hdata]
      exact List.mem_cons_self _ _
    rcases mem_natToStr _ _ hmem with ⟨d, hd10, hd'⟩
    exact (digitChar_notin_special d hd10).1 hd'.symm
  · exfalso
    have hdata := congrArg String.data h.symm
    simp only [intToStr, if_pos hj, if_neg hi, data_append] at hdata
    simp only [List.cons_append, List.nil_append] at hdata
    have hmem : '-' ∈ (natToStr i.toNat).data := by
      rw [← hdata]
      exact List.mem_cons_self _ _
    rcases mem_natToStr _ _ hmem with ⟨d, hd10, hd'⟩
    exact (digitChar_notin_special d hd10).1 hd'.symm
  · have hdata := congrArg String.data h
    simp only [intToStr, if_neg hi, if_neg hj] at hdata
    have := natToStr_inj _ _ (String.ext hdata)
    omega

theorem append_cons_inj (c : Char) (a1 : List Char) :
    ∀ (a2 b1 b2 : List Char), c ∉ a1 → c ∉ a2 →
      a1 ++ c :: b1 = a2 ++ c :: b2 → a1 = a2 ∧ b1 = b2 := by
  induction a1 with
  | nil =>
    intro a2 b1 b2 _ hc2 h
    cases a2 with
    | nil => simpa using h
    | cons y ys =>
      exfalso
      simp only [List.nil_append, List.cons_append, List.cons.injEq] at h
      exact hc2 (h.1 ▸ List.mem_cons_self _ _)
  | cons x xs ih =>
    intro a2 b1 b2 hc1 hc2 h
    cases a2 with
    | nil =>
      exfalso
      simp only [List.nil_append, List.cons_append, List.cons.injEq] at h
      exact hc1 (h.1.symm ▸ List.mem_cons_self _ _)
    | cons y ys =>
      simp only [List.cons_append, List.cons.injEq] at h
      have hx : c ∉ xs := fun hm => hc1 (List.mem_cons_of_mem _ hm)
      have hy : c ∉ ys := fun hm => hc2 (List.mem_cons_of_mem _ hm)
      rcases ih ys b1 b2 hx hy h.2 with ⟨h1, h2⟩
      exact ⟨by rw [h.1, h1], h2⟩

theorem mem_ratToStr (q : ℚ) (c : Char) (hc : c ∈ (ratToStr q).data) :
    c = '-' ∨ c = '/' ∨ ∃ d, d < 10 ∧ c = digitChar d := by
  by_cases h : q.den = 1
  · simp only [ratToStr, if_pos h] at hc
    rcases mem_intToStr _ _ hc with h' | h'
    · exact Or.inl h'
    · exact Or.inr (Or.inr h')
  · simp only [ratToStr, if_neg h, data_append] at hc
    rcases List.mem_append.mp hc with h' | h'
    · rcases List.mem_append.mp h' with h'' | h''
      · rcases mem_intToStr _ _ h'' with h3 | h3
        · exact Or.inl h3
        · exact Or.inr (Or.inr h3)
      · have : c = '/' := by simpa using h''
        exact Or.inr (Or.inl this)
    · exact Or.inr (Or.inr (mem_natToStr _ _ h'))

theorem ratToStr_no_comma (q : ℚ) : ',' ∉ (ratToStr q).data := by
  intro hc
  rcases mem_ratToStr q ',' hc with h | h | ⟨d, hd, h⟩
  · exact absurd h (by decide)
  · exact absurd h (by decide)
  · exact (digitChar_notin_special d hd).2.2.1 h.symm

theorem ratToStr_no_pipe (q : ℚ) : '|' ∉ (ratToStr q).data := by
  intro hc
  rcases mem_ratToStr q '|' hc with h | h | ⟨d, hd, h⟩
  · exact absurd h (by decide)
  · exact absurd h (by decide)
  · exact (digitChar_notin_special d hd).2.2.2.1 h.symm

theorem ratToStr_ne_empty (q : ℚ) : (ratToStr q).data ≠ [] := by
  by_cases h : q.den = 1
  · simp only [ratToStr, if_pos h]
    by_cases hi : q.num < 0
    · simp only [intToStr, if_pos hi, data_append]
      simp
    · simp only [intToStr, if_neg hi]
      exact natToStr_ne_empty _
  · simp only [ratToStr, if_neg h, data_append]
    intro hcon
    rcases List.append_eq_nil.mp hcon with ⟨_, h2⟩
    exact natToStr_ne_empty _ h2

theorem intToStr_no_slash (i : ℤ) : '/' ∉ (intToStr i).data := by
  intro hc
  rcases mem_intToStr _ _ hc with h | ⟨d, hd, h⟩
  · exact absurd h (by decide)
  · exact (digitChar_notin_special d hd).2.1 h.symm

theorem natToStr_no_slash (n : ℕ) : '/' ∉ (natToStr n).data := by
  intro hc
  rcases mem_natToStr _ _ hc with ⟨d, hd, h⟩
  exact (digitChar_notin_special d hd).2.1 h.symm

theorem ratToStr_inj (q q' : ℚ) (h : ratToStr q = ratToStr q') : q = q' := by
  by_cases h1 : q.den = 1 <;> by_cases h2 : q'.den = 1
  · rw [ratToStr, if_pos h1, ratToStr, if_pos h2] at h
    have hnum := intToStr_inj _ _ h
    exact Rat.ext hnum (h1.trans h2.symm)
  · exfalso
    have hdata := congrArg String.data h
    rw [ratToStr, if_pos h1, ratToStr, if_neg h2] at hdata
    simp only [data_append] at hdata
    have hmem : '/' ∈ (intToStr q.num).data := by
      rw [hdata]
      refine List.mem_append.mpr (Or.inl (List.mem_append.mpr (Or.inr ?_)))
      simp [show ("/" : String).data = ['/'] from rfl]
    exact intToStr_no_slash _ hmem
  · exfalso
    have hdata := congrArg String.data h.symm
    rw [ratToStr, if_pos h2, ratToStr, if_neg h1] at hdata
    simp only [data_append] at hdata
    have hmem : '/' ∈ (intToStr q'.num).data := by
      rw [hdata]
      refine List.mem_append.mpr (Or.inl (List.mem_append.mpr (Or.inr ?_)))
      simp [show ("/" : String).data = ['/'] from rfl]
    exact intToStr_no_slash _ hmem
  · have hdata := congrArg String.data h
    rw [ratToStr, if_neg h1, ratToStr, if_neg h2] at hdata
    simp only [data_append] at hdata
    simp only [List.append_assoc, List.cons_append, List.nil_append] at hdata
    rcases append_cons_inj '/' _ _ _ _ (intToStr_no_slash q.num)
      (intToStr_no_slash q'.num) hdata with ⟨ha, hb⟩
    have hnum := intToStr_inj _ _ (String.ext ha)
    have hden := natToStr_inj _ _ (String.ext hb)
    exact Rat.ext hnum hden

theorem joinCommaStr_cons₂ (s t : String) (r : List String) :
    (joinCommaStr (s :: t :: r)).data =
      s.data ++ ',' :: (joinCommaStr (t :: r)).data := by
  show (s ++ "," ++ joinCommaStr (t :: r)).data = _
  simp only [data_append, List.append_assoc]
  rfl

theorem mem_joinCommaStr (l : List String) (c : Char)
    (hc : c ∈ (joinCommaStr l).data) : c = ',' ∨ ∃ s ∈ l, c ∈ s.data := by
  induction l with
  | nil => simp [joinCommaStr] at hc
  | cons s rest ih =>
    cases rest with
    | nil =>
      right
      exact ⟨s, List.mem_cons_self _ _, hc⟩
    | cons t r =>
      rw [joinCommaStr_cons₂] at hc
      rcases List.mem_append.mp hc with h | h
      · right; exact ⟨s, List.mem_cons_self _ _, h⟩
      · rcases List.mem_cons.mp h with h' | h'
        · left; exact h'
        · rcases ih h' with h'' | ⟨u, hu, hcu⟩
          · left; exact h''
          · right; exact ⟨u, List.mem_cons_of_mem _ hu, hcu⟩

theorem joinCommaStr_inj (l1 : List String) :
    ∀ l2 : List String, (∀ s ∈ l1, s.data ≠ [] ∧ ',' ∉ s.data) →
      (∀ s ∈ l2, s.data ≠ [] ∧ ',' ∉ s.data) →
      joinCommaStr l1 = joinCommaStr l2 → l1 = l2 := by
  induction l1 with
  | nil =>
    intro l2 _ h2 h
    cases l2 with
    | nil => rfl
    | cons s rest =>
      exfalso
      cases rest with
      | nil =>
        have : s.data = [] := by
          have := congrArg String.data h
          simpa [joinCommaStr] using this.symm
        exact (h2 s (List.mem_cons_self _ _)).1 this
      | cons t r =>
        have hd := congrArg String.data h
        rw [joinCommaStr_cons₂] at hd
        have : ([] : List Char) = s.data ++ ',' :: (joinCommaStr (t :: r)).data := by
          simpa [joinCommaStr] using hd
        exact List.cons_ne_nil _ _ (List.append_eq_nil.mp this.symm).2
  | cons s1 rest1 ih =>
    intro l2 h1 h2 h
    cases l2 with
    | nil =>
      exfalso
      cases rest1 with
      | nil =>
        have : s1.data = [] := by
          have := congrArg String.data h
          simpa [joinCommaStr] using this
        exact (h1 s1 (List.mem_cons_self _ _)).1 this
      | cons t r =>
        have hd := congrArg String.data h
        rw [joinCommaStr_cons₂] at hd
        have : s1.data ++ ',' :: (joinCommaStr (t :: r)).data = ([] : List Char) := by
          simpa [joinCommaStr] using hd
        exact List.cons_ne_nil _ _ (List.append_eq_nil.mp this).2
    | cons s2 rest2 =>
      cases rest1 with
      | nil =>
        cases rest2 with
        | nil =>
          have : s1 = s2 := h
          rw [this]
        | cons t2 r2 =>
          exfalso
          have hd := congrArg String.data h
          rw [joinCommaStr_cons₂] at hd
          have hmem : ',' ∈ s1.data := by
            have : s1.data = s2.data ++ ',' :: (joinCommaStr (t2 :: r2)).data := by
              simpa [joinCommaStr] using hd
            rw [this]
            exact List.mem_append.mpr (Or.inr (List.mem_cons_self _ _))
          exact (h1 s1 (List.mem_cons_self _ _)).2 hmem
      | cons t1 r1 =>
        cases rest2 with
        | nil =>
          exfalso
          have hd := congrArg String.data h
          rw [joinCommaStr_cons₂] at hd
          have hmem : ',' ∈ s2.data := by
            have : s2.data = s1.data ++ ',' :: (joinCommaStr (t1 :: r1)).data := by
              simpa [joinCommaStr] using hd.symm
            rw [this]
            exact List.mem_append.mpr (Or.inr (List.mem_cons_self _ _))
          exact (h2 s2 (List.mem_cons_self _ _)).2 hmem
        | cons t2 r2 =>
          have hd := congrArg String.data h
          rw [joinCommaStr_cons₂, joinCommaStr_cons₂] at hd
          rcases append_cons_inj ',' _ _ _ _ (h1 s1 (List.mem_cons_self _ _)).2
            (h2 s2 (List.mem_cons_self _ _)).2 hd with ⟨ha, hb⟩
          have hs : s1 = s2 := String.ext ha
          have hrest : t1 :: r1 = t2 :: r2 := by
            refine ih (t2 :: r2) ?_ ?_ (String.ext hb)
            · intro s hs'; exact h1 s (List.mem_cons_of_mem _ hs')
            · intro s hs'; exact h2 s (List.mem_cons_of_mem _ hs')
          rw [hs, hrest]

theorem string_of_data_eq (s t : String) (h : s.data = t.data) : s = t := String.ext h

theorem encodeKey_data (ns : List ℚ) (t : ℚ) :
    (encodeKey ns t).data =
      (joinCommaStr ((sortJS ns).map ratToStr)).data ++ '|' :: (ratToStr t).data := by
  show ((joinCommaStr ((sortJS ns).map ratToStr) ++ "|") ++ ratToStr t).data = _
  simp only [data_append, List.append_assoc]
  rfl

theorem no_pipe_joinCommaStr (ns : List ℚ) :
    '|' ∉ (joinCommaStr ((sortJS ns).map ratToStr)).data := by
  intro hc
  rcases mem_joinCommaStr _ _ hc with h | ⟨s, hs, hcs⟩
  · exact absurd h (by decide)
  · rcases List.mem_map.mp hs with ⟨q, _, rfl⟩
    exact ratToStr_no_pipe q hcs

/-- The cache-key encoding determines the sorted multiset and the
target: two inputs get the same key exactly when their sorted copies
and targets agree. -/
theorem encodeKey_inj (ns ns' : List ℚ) (t t' : ℚ)
    (h : encodeKey ns t = encodeKey ns' t') : sortJS ns = sortJS ns' ∧ t = t' := by
  have hd := congrArg String.data h
  rw [encodeKey_data, encodeKey_data] at hd
  rcases append_cons_inj '|' _ _ _ _ (no_pipe_joinCommaStr ns)
    (no_pipe_joinCommaStr ns') hd with ⟨ha, hb⟩
  have ht : t = t' := ratToStr_inj _ _ (String.ext hb)
  have hmaps : (sortJS ns).map ratToStr = (sortJS ns').map ratToStr := by
    refine joinCommaStr_inj _ _ ?_ ?_ (String.ext ha)
    · intro s hs
      rcases List.mem_map.mp hs with ⟨q, _, rfl⟩
      exact ⟨ratToStr_ne_empty q, ratToStr_no_comma q⟩
    · intro s hs
      rcases List.mem_map.mp hs with ⟨q, _, rfl⟩
      exact ⟨ratToStr_ne_empty q, ratToStr_no_comma q⟩
  have hinj : Function.Injective ratToStr := fun a b hab => ratToStr_inj a b hab
  exact ⟨List.map_injective_iff.mpr hinj hmaps, ht⟩

theorem sortJS_perm (l : List ℚ) : (sortJS l).Perm l := List.perm_insertionSort _ _

theorem sortJS_eq_of_perm (l l' : List ℚ) (h : l.Perm l') : sortJS l = sortJS l' := by
  haveI : IsTotal ℚ sortRel := ⟨fun a b => charLe_total _ _⟩
  haveI : IsTrans ℚ sortRel := ⟨fun a b c hab hbc => charLe_trans _ _ _ hab hbc⟩
  haveI : IsAntisymm ℚ sortRel :=
    ⟨fun a b hab hba => ratToStr_inj a b (String.ext (charLe_antisymm _ _ hab hba))⟩
  exact List.eq_of_perm_of_sorted
    ((sortJS_perm l).trans (h.trans (sortJS_perm l').symm))
    (List.sorted_insertionSort _ _) (List.sorted_insertionSort _ _)

theorem encodeKey_eq_of_perm (ns ns' : List ℚ) (t : ℚ) (h : ns.Perm ns') :
    encodeKey ns t = encodeKey ns' t := by
  unfold encodeKey
  rw [sortJS_eq_of_perm ns ns' h]

theorem exists_index_of_perm_cons (l : List ℚ) :
    ∀ (b : ℚ) (r : List ℚ), l.Perm (b :: r) →
      ∃ j : ℕ, j < l.length ∧ l.getD j 0 = b ∧ (removeOneInt l j).Perm r := by
  induction l with
  | nil =>
    intro b r h
    exact absurd h.length_eq (by simp)
  | cons x xs ih =>
    intro b r h
    by_cases hx : x = b
    · subst hx
      refine ⟨0, by simp, List.getD_cons_zero, ?_⟩
      have h1 : removeOneInt (x :: xs) ((0 : ℕ) : ℤ) = xs := by
        simp only [removeOneInt, Nat.cast_zero, if_pos rfl, List.nil_append]
        exact removeOneInt_neg xs (0 - 1) (by omega)
      rw [h1]
      exact h.cons_inv
    · have hxm : x ∈ r := by
        have hx1 : x ∈ b :: r := h.mem_iff.mp (List.mem_cons_self _ _)
        rcases List.mem_cons.mp hx1 with h' | h'
        · exact absurd h' hx
        · exact h'
      have hxs : xs.Perm (b :: r.erase x) := by
        have h2 : (b :: r).Perm (b :: x :: r.erase x) :=
          (List.perm_cons_erase hxm).cons b
        have h3 : (x :: xs).Perm (x :: b :: r.erase x) :=
          (h.trans h2).trans (List.Perm.swap x b (r.erase x))
        exact h3.cons_inv
      rcases ih b (r.erase x) hxs with ⟨j', hj', hget, hperm⟩
      refine ⟨j' + 1, by simpa using hj', by simpa using hget, ?_⟩
      have hne : ¬((j' + 1 : ℕ) : ℤ) = 0 := by push_cast; omega
      have hcast : ((j' + 1 : ℕ) : ℤ) - 1 = (j' : ℤ) := by push_cast; ring
      rw [show removeOneInt (x :: xs) ((j' + 1 : ℕ) : ℤ) =
          x :: removeOneInt xs (j' : ℤ) by
        simp only [removeOneInt, hne, if_false, List.singleton_append, hcast]]
      exact (hperm.cons x).trans (List.perm_cons_erase hxm).symm

theorem exists_index_pair_of_perm (l : List ℚ) :
    ∀ (a b : ℚ) (r : List ℚ), l.Perm (a :: b :: r) →
      ∃ i j : ℕ, i < l.length ∧ j < l.length ∧ i ≠ j ∧
        l.getD i 0 = a ∧ l.getD j 0 = b ∧ (removeTwoInt l i j).Perm r := by
  induction l with
  | nil =>
    intro a b r h
    exact absurd h.length_eq (by simp)
  | cons x xs ih =>
    intro a b r h
    by_cases hxa : x = a
    · subst hxa
      have hxs : xs.Perm (b :: r) := h.cons_inv
      rcases exists_index_of_perm_cons xs b r hxs with ⟨j', hj', hget, hperm⟩
      refine ⟨0, j' + 1, by simp, by simpa using hj', by omega,
        List.getD_cons_zero, by simpa using hget, ?_⟩
      have hcast : ((j' + 1 : ℕ) : ℤ) - 1 = (j' : ℤ) := by push_cast; ring
      rw [show removeTwoInt (x :: xs) ((0 : ℕ) : ℤ) ((j' + 1 : ℕ) : ℤ) =
          removeOneInt xs (j' : ℤ) by
        simp only [removeTwoInt, Nat.cast_zero, if_pos (Or.inl rfl),
          List.nil_append, hcast]
        exact removeTwoInt_neg_left xs (0 - 1) _ (by omega)]
      exact hperm
    · by_cases hxb : x = b
      · subst hxb
        have hxs : xs.Perm (a :: r) := by
          have h2 : (x :: xs).Perm (x :: a :: r) :=
            h.trans (List.Perm.swap x a r)
          exact h2.cons_inv
        rcases exists_index_of_perm_cons xs a r hxs with ⟨i', hi', hget, hperm⟩
        refine ⟨i' + 1, 0, by simpa using hi', by simp, by omega,
          by simpa using hget, List.getD_cons_zero, ?_⟩
        have hcast : ((i' + 1 : ℕ) : ℤ) - 1 = (i' : ℤ) := by push_cast; ring
        rw [show removeTwoInt (x :: xs) ((i' + 1 : ℕ) : ℤ) ((0 : ℕ) : ℤ) =
            removeOneInt xs (i' : ℤ) by
          simp only [removeTwoInt, Nat.cast_zero, if_pos (Or.inr rfl),
            List.nil_append, hcast]
          rw [removeTwoInt_comm]
          exact removeTwoInt_neg_left xs (0 - 1) _ (by omega)]
        exact hperm
      · have hxm : x ∈ r := by
          have hx1 : x ∈ a :: b :: r := h.mem_iff.mp (List.mem_cons_self _ _)
          rcases List.mem_cons.mp hx1 with h' | h'
          · exact absurd h' hxa
          · rcases List.mem_cons.mp h' with h'' | h''
            · exact absurd h'' hxb
            · exact h''
        have hxs : xs.Perm (a :: b :: r.erase x) := by
          have h2 : (a :: b :: r).Perm (a :: b :: x :: r.erase x) :=
            ((List.perm_cons_erase hxm).cons b).cons a
          have h3 : (a :: b :: x :: r.erase x).Perm (x :: a :: b :: r.erase x) :=
            ((List.Perm.swap x b (r.erase x)).cons a).trans
              (List.Perm.swap x a (b :: r.erase x))
          exact ((h.trans h2).trans h3).cons_inv
        rcases ih a b (r.erase x) hxs with ⟨i', j', hi', hj', hij', hga, hgb, hperm⟩
        refine ⟨i' + 1, j' + 1, by simpa using hi', by simpa using hj', by omega,
          by simpa using hga, by simpa using hgb, ?_⟩
        have hne : ¬(((i' + 1 : ℕ) : ℤ) = 0 ∨ ((j' + 1 : ℕ) : ℤ) = 0) := by
          push_cast; omega
        have hc1 : ((i' + 1 : ℕ) : ℤ) - 1 = (i' : ℤ) := by push_cast; ring
        have hc2 : ((j' + 1 : ℕ) : ℤ) - 1 = (j' : ℤ) := by push_cast; ring
        rw [show removeTwoInt (x :: xs) ((i' + 1 : ℕ) : ℤ) ((j' + 1 : ℕ) : ℤ) =
            x :: removeTwoInt xs (i' : ℤ) (j' : ℤ) by
          simp only [removeTwoInt, hne, if_false, List.singleton_append, hc1, hc2]]
        exact (hperm.cons x).trans (List.perm_cons_erase hxm).symm

/-- Transport of a branch along a permutation of the input: every
successor multiset of `ns` is matched, up to permutation, by a
successor multiset of any permutation of `ns`. -/
theorem branches_perm_transport (ns ns' : List ℚ) (h : ns.Perm ns') (b : List ℚ)
    (hb : b ∈ branches ns) : ∃ b' ∈ branches ns', b'.Perm b := by
  rcases (mem_branches_iff ns b).mp hb with ⟨i, j, hi, hj, hij, v, hv, rfl⟩
  have hdecomp := perm_removeTwo ns i j hij hi hj
  have h' : ns'.Perm (ns.getD i 0 :: ns.getD j 0 :: removeTwo ns i j) :=
    h.symm.trans hdecomp
  rcases exists_index_pair_of_perm ns' _ _ _ h' with
    ⟨i', j', hi', hj', hij', hga, hgb, hperm⟩
  refine ⟨removeTwo ns' i' j' ++ [v], ?_, ?_⟩
  · refine (mem_branches_iff ns' _).mpr ⟨i', j', hi', hj', hij', v, ?_, rfl⟩
    rw [hga, hgb]
    exact hv
  · rw [removeTwo_eq_int ns']
    exact hperm.append_right [v]

theorem any_attach_eq (l : List (List ℚ)) (f : List ℚ → Bool) :
    (l.attach.any fun b => f b.1) = l.any f := by
  rw [Bool.eq_iff_iff, List.any_eq_true, List.any_eq_true]
  constructor
  · rintro ⟨b, _, h⟩
    exact ⟨b.1, b.2, h⟩
  · rintro ⟨x, hx, h⟩
    exact ⟨⟨x, hx⟩, List.mem_attach _ _, h⟩

theorem pureReach_perm_aux (c : Store) :
    ∀ (n : ℕ) (ns ns' : List ℚ) (t : ℚ), ns.length ≤ n → ns.Perm ns' →
      pureReach c ns t = pureReach c ns' t := by
  intro n
  induction n with
  | zero =>
    intro ns ns' t hlen hperm
    have h1 : ns = [] := List.length_eq_zero.mp (by omega)
    have h2 : ns' = [] := List.length_eq_zero.mp (by rw [← hperm.length_eq]; omega)
    rw [h1, h2]
  | succ n ih =>
    intro ns ns' t hlen hperm
    rw [pureReach, pureReach, encodeKey_eq_of_perm ns ns' t hperm]
    cases hlu : List.lookup (encodeKey ns' t) c with
    | some v => rfl
    | none =>
      simp only []
      rw [hperm.length_eq]
      by_cases hl1 : ns'.length = 1
      · rw [if_pos hl1, if_pos hl1]
        rcases List.length_eq_one.mp hl1 with ⟨a, ha⟩
        have hns : ns = [a] := List.perm_singleton.mp (ha ▸ hperm)
        rw [hns, ha]
      · rw [if_neg hl1, if_neg hl1]
        rw [Bool.eq_iff_iff, List.any_eq_true, List.any_eq_true]
        constructor
        · rintro ⟨b, _, hpb⟩
          rcases branches_perm_transport ns ns' hperm b.1 b.2 with ⟨b', hb', hbp⟩
          refine ⟨⟨b', hb'⟩, List.mem_attach _ _, ?_⟩
          show pureReach c b' t = true
          have hlen' : b'.length ≤ n := by
            have h1 := length_lt_of_mem_branches ns' b' hb'
            have h2 := hperm.length_eq
            omega
          rw [ih b' b.1 t hlen' hbp]
          exact hpb
        · rintro ⟨b', _, hpb⟩
          rcases branches_perm_transport ns' ns hperm.symm b'.1 b'.2 with ⟨b, hb, hbp⟩
          refine ⟨⟨b, hb⟩, List.mem_attach _ _, ?_⟩
          show pureReach c b t = true
          have hlen' : b.length ≤ n := by
            have h1 := length_lt_of_mem_branches ns b hb
            omega
          rw [ih b b'.1 t hlen' hbp]
          exact hpb

/-- `pureReach` is invariant under permutation of the input multiset. -/
theorem pureReach_perm (c : Store) (ns ns' : List ℚ) (t : ℚ) (h : ns.Perm ns') :
    pureReach c ns t = pureReach c ns' t :=
  pureReach_perm_aux c ns.length ns ns' t le_rfl h

/-- Two inputs with the same cache key have the same `pureReach` value:
the encoding identifies exactly the permutation classes. -/
theorem pureReach_key_congr (c : Store) (ns ns' : List ℚ) (t t' : ℚ)
    (h : encodeKey ns t = encodeKey ns' t') :
    pureReach c ns t = pureReach c ns' t' := by
  rcases encodeKey_inj ns ns' t t' h with ⟨hsort, ht⟩
  subst ht
  refine pureReach_perm c ns ns' t ?_
  exact ((sortJS_perm ns).symm.trans (hsort ▸ sortJS_perm ns'))

theorem lookup_mapSet_self (k : String) (v : Bool) (l : Store) :
    List.lookup k (mapSet k v l) = some v := by
  induction l with
  | nil => simp [mapSet, List.lookup]
  | cons p rest ih =>
    rcases p with ⟨k', v'⟩
    by_cases h : k' = k
    · subst h
      simp [mapSet, List.lookup]
    · simp only [mapSet, if_neg h, List.lookup]
      rw [show (k == k') = false from beq_eq_false_iff_ne.mpr fun he => h he.symm]
      exact ih

theorem lookup_mapSet_ne (k k' : String) (v : Bool) (l : Store) (h : k' ≠ k) :
    List.lookup k' (mapSet k v l) = List.lookup k' l := by
  induction l with
  | nil =>
    simp only [mapSet, List.lookup]
    rw [show (k' == k) = false from beq_eq_false_iff_ne.mpr h]
  | cons p rest ih =>
    rcases p with ⟨k₀, v₀⟩
    by_cases h0 : k₀ = k
    · subst h0
      simp only [mapSet, if_pos rfl, List.lookup]
      rw [show (k' == k₀) = false from beq_eq_false_iff_ne.mpr h]
    · simp only [mapSet, if_neg h0, List.lookup]
      by_cases h1 : k' = k₀
      · subst h1
        simp
      · rw [show (k' == k₀) = false from beq_eq_false_iff_ne.mpr h1]
        exact ih

/-- `c` extends the initial snapshot `c₀`: old entries are unchanged,
and every new entry sits under some encoded key and stores that key's
`pureReach` value against `c₀`. -/
def extendsStore (c₀ c : Store) : Prop :=
  (∀ k v, List.lookup k c₀ = some v → List.lookup k c = some v) ∧
  (∀ ns t, List.lookup (encodeKey ns t) c₀ = none →
    List.lookup (encodeKey ns t) c = none ∨
    List.lookup (encodeKey ns t) c = some (pureReach c₀ ns t))

/-- Every key present in the transient memo is present in the
persistent store (true throughout a top-level call that starts with a
fresh memo, because the two are always written together). -/
def memoSub (m g : Store) : Prop :=
  ∀ k, (List.lookup k m).isSome → (List.lookup k g).isSome

theorem extendsStore_refl (c : Store) : extendsStore c c := by
  refine ⟨fun k v h => h, fun ns t h => Or.inl h⟩

theorem memoSub_nil (g : Store) : memoSub [] g := by
  intro k h
  simp [List.lookup] at h

theorem extendsStore_mapSet (c₀ c : Store) (hext : extendsStore c₀ c)
    (ns : List ℚ) (t : ℚ)
    (h0 : List.lookup (encodeKey ns t) c₀ = none) (r : Bool)
    (hr : r = pureReach c₀ ns t) :
    extendsStore c₀ (mapSet (encodeKey ns t) r c) := by
  constructor
  · intro k v hk
    by_cases hke : k = encodeKey ns t
    · subst hke
      rw [hk] at h0
      exact absurd h0 (by simp)
    · rw [lookup_mapSet_ne _ _ _ _ hke]
      exact hext.1 k v hk
  · intro ns' t' h0'
    by_cases hke : encodeKey ns' t' = encodeKey ns t
    · right
      rw [hke, lookup_mapSet_self]
      have : pureReach c₀ ns' t' = pureReach c₀ ns t :=
        pureReach_key_congr c₀ ns' ns t' t hke
      rw [this, hr]
    · rw [lookup_mapSet_ne _ _ _ _ hke]
      exact hext.2 ns' t' h0'

theorem memoSub_mapSet (m g : Store) (h : memoSub m g) (k : String) (v : Bool) :
    memoSub (mapSet k v m) (mapSet k v g) := by
  intro k' hk'
  by_cases hke : k' = k
  · subst hke
    rw [lookup_mapSet_self]
    simp
  · rw [lookup_mapSet_ne _ _ _ _ hke] at hk'
    rw [lookup_mapSet_ne _ _ _ _ hke]
    exact h k' hk'

theorem canMakeTarget_eq (ns : List ℚ) (t : ℚ) (m g : Store) :
    canMakeTarget ns t m g =
      match List.lookup (encodeKey ns t) g with
      | some v => (v, m, g)
      | none =>
        match List.lookup (encodeKey ns t) m with
        | some v => (v, m, g)
        | none =>
          if ns.length = 1 then
            (fun r => (r, mapSet (encodeKey ns t) r m, mapSet (encodeKey ns t) r g))
              (decide (|ns.getD 0 0 - t| < tol))
          else
            (fun st => (st.1, mapSet (encodeKey ns t) st.1 st.2.1,
                mapSet (encodeKey ns t) st.1 st.2.2))
              ((branches ns).attach.foldl
                (fun acc b =>
                  if acc.1 then acc else canMakeTarget b.1 t acc.2.1 acc.2.2)
                (false, m, g)) := by
  rw [canMakeTarget]

theorem foldl_search_stop (ns : List ℚ) (t : ℚ) :
    ∀ (bs : List {x // x ∈ branches ns}) (p : Bool × Store × Store), p.1 = true →
      bs.foldl
        (fun acc b => if acc.1 then acc else canMakeTarget b.1 t acc.2.1 acc.2.2)
        p = p := by
  intro bs
  induction bs with
  | nil => intro p _; rfl
  | cons b rest ih =>
    intro p hp
    rw [List.foldl_cons, if_pos hp]
    exact ih p hp

theorem canMakeTarget_pure_step (c₀ : Store) (ns : List ℚ) (t : ℚ)
    (IH : ∀ b : List ℚ, b ∈ branches ns → ∀ m g : Store,
      extendsStore c₀ g → memoSub m g →
      (canMakeTarget b t m g).1 = pureReach c₀ b t ∧
        extendsStore c₀ (canMakeTarget b t m g).2.2 ∧
        memoSub (canMakeTarget b t m g).2.1 (canMakeTarget b t m g).2.2) :
    ∀ m g : Store, extendsStore c₀ g → memoSub m g →
      (canMakeTarget ns t m g).1 = pureReach c₀ ns t ∧
        extendsStore c₀ (canMakeTarget ns t m g).2.2 ∧
        memoSub (canMakeTarget ns t m g).2.1 (canMakeTarget ns t m g).2.2 := by
  intro m g hext hmemo
  rw [canMakeTarget_eq]
  cases hg : List.lookup (encodeKey ns t) g with
  | some v =>
    refine ⟨?_, ?_, ?_⟩
    · show v = pureReach c₀ ns t
      cases hc : List.lookup (encodeKey ns t) c₀ with
      | some w =>
        have h1 := hext.1 _ _ hc
        rw [hg] at h1
        injection h1 with h1
        rw [h1, pureReach, hc]
      | none =>
        rcases hext.2 ns t hc with h | h
        · rw [hg] at h
          exact absurd h (by simp)
        · rw [hg] at h
          exact Option.some.inj h
    · exact hext
    · exact hmemo
  | none =>
    cases hm : List.lookup (encodeKey ns t) m with
    | some v =>
      have h1 := hmemo (encodeKey ns t) (by rw [hm]; simp)
      rw [hg] at h1
      simp at h1
    | none =>
      have hc : List.lookup (encodeKey ns t) c₀ = none := by
        cases hc' : List.lookup (encodeKey ns t) c₀ with
        | some w =>
          have h1 := hext.1 _ _ hc'
          rw [hg] at h1
          exact absurd h1 (by simp)
        | none => rfl
      by_cases hlen1 : ns.length = 1
      · rw [if_pos hlen1]
        have hr : decide (|ns.getD 0 0 - t| < tol) = pureReach c₀ ns t := by
          rw [pureReach, hc]
          simp [hlen1]
        refine ⟨?_, ?_, ?_⟩
        · exact hr
        · exact extendsStore_mapSet c₀ g hext ns t hc _ hr
        · exact memoSub_mapSet m g hmemo (encodeKey ns t) _
      · rw [if_neg hlen1]
        have hfold : ∀ (bs : List {x // x ∈ branches ns}) (m' g' : Store),
            extendsStore c₀ g' → memoSub m' g' →
            (bs.foldl
                (fun acc b =>
                  if acc.1 then acc else canMakeTarget b.1 t acc.2.1 acc.2.2)
                (false, m', g')).1 = bs.any (fun b => pureReach c₀ b.1 t) ∧
              extendsStore c₀ (bs.foldl
                (fun acc b =>
                  if acc.1 then acc else canMakeTarget b.1 t acc.2.1 acc.2.2)
                (false, m', g')).2.2 ∧
              memoSub (bs.foldl
                (fun acc b =>
                  if acc.1 then acc else canMakeTarget b.1 t acc.2.1 acc.2.2)
                (false, m', g')).2.1 (bs.foldl
                (fun acc b =>
                  if acc.1 then acc else canMakeTarget b.1 t acc.2.1 acc.2.2)
                (false, m', g')).2.2 := by
          intro bs
          induction bs with
          | nil =>
            intro m' g' hext' hm'
            exact ⟨rfl, hext', hm'⟩
          | cons b rest ihb =>
            intro m' g' hext' hm'
            rw [List.foldl_cons]
            rw [show (if ((false, m', g') : Bool × Store × Store).1 = true
                then ((false, m', g') : Bool × Store × Store)
                else canMakeTarget b.1 t (false, m', g').2.1 (false, m', g').2.2) =
                canMakeTarget b.1 t m' g' from rfl]
            rcases IH b.1 b.2 m' g' hext' hm' with ⟨hres, hext₁, hm₁⟩
            by_cases hpb : pureReach c₀ b.1 t = true
            · have hres1 : (canMakeTarget b.1 t m' g').1 = true := by rw [hres, hpb]
              rw [foldl_search_stop ns t rest _ hres1]
              refine ⟨?_, hext₁, hm₁⟩
              rw [hres1]
              simp [hpb]
            · have hpbf : pureReach c₀ b.1 t = false := by
                cases h' : pureReach c₀ b.1 t
                · rfl
                · exact absurd h' hpb
              have hres1 : (canMakeTarget b.1 t m' g').1 = false := by rw [hres, hpbf]
              have heq : (false, (canMakeTarget b.1 t m' g').2.1,
                  (canMakeTarget b.1 t m' g').2.2) = canMakeTarget b.1 t m' g' := by
                rw [← hres1]
              rw [← heq]
              rcases ihb (canMakeTarget b.1 t m' g').2.1
                (canMakeTarget b.1 t m' g').2.2 hext₁ hm₁ with ⟨h1, h2, h3⟩
              refine ⟨?_, h2, h3⟩
              rw [h1]
              simp [hpbf]
        rcases hfold (branches ns).attach m g hext hmemo with ⟨h1, h2, h3⟩
        have hst : ((branches ns).attach.foldl
            (fun acc b =>
              if acc.1 then acc else canMakeTarget b.1 t acc.2.1 acc.2.2)
            (false, m, g)).1 = pureReach c₀ ns t := by
          rw [h1, pureReach, hc]
          simp [hlen1]
        refine ⟨?_, ?_, ?_⟩
        · exact hst
        · exact extendsStore_mapSet c₀ _ h2 ns t hc _ hst
        · exact memoSub_mapSet _ _ h3 (encodeKey ns t) _

theorem canMakeTarget_pure_all (c₀ : Store) :
    ∀ (n : ℕ) (ns : List ℚ) (t : ℚ) (m g : Store), ns.length ≤ n →
      extendsStore c₀ g → memoSub m g →
      (canMakeTarget ns t m g).1 = pureReach c₀ ns t ∧
        extendsStore c₀ (canMakeTarget ns t m g).2.2 ∧
        memoSub (canMakeTarget ns t m g).2.1 (canMakeTarget ns t m g).2.2 := by
  intro n
  induction n with
  | zero =>
    intro ns t m g hlen hext hmemo
    refine canMakeTarget_pure_step c₀ ns t ?_ m g hext hmemo
    intro b hb
    exfalso
    have := length_lt_of_mem_branches ns b hb
    omega
  | succ n ih =>
    intro ns t m g hlen hext hmemo
    refine canMakeTarget_pure_step c₀ ns t ?_ m g hext hmemo
    intro b hb m' g' hext' hm'
    have hblen : b.length ≤ n := by
      have := length_lt_of_mem_branches ns b hb
      omega
    exact ih b t m' g' hblen hext' hm'

/-- With a fresh transient memo, the stateful search returns exactly
the pure value computed against the snapshot of the persistent store
taken at call time. -/
theorem canMakeTarget_eq_pureReach (ns : List ℚ) (t : ℚ) (g : Store) :
    (canMakeTarget ns t [] g).1 = pureReach g ns t :=
  (canMakeTarget_pure_all g ns.length ns t [] g le_rfl (extendsStore_refl g)
    (memoSub_nil g)).1

/-- C5: for all multisets `M` and targets `t`, `canMakeTarget(M, t)`
returns the same boolean for every permutation of `M`, given a fresh
transient memo and the same persistent store state. -/
theorem claim_c5_perm_invariant (ns ns' : List ℚ) (t : ℚ) (g : Store)
    (h : ns.Perm ns') :
    (canMakeTarget ns t [] g).1 = (canMakeTarget ns' t [] g).1 := by
  rw [canMakeTarget_eq_pureReach, canMakeTarget_eq_pureReach]
  exact pureReach_perm g ns ns' t h

/-- Witness for C5 at the concrete permutation `[2, 3] / [3, 2]`,
target `6`, empty memo and empty persistent store. -/
theorem claim_c5_perm_invariant_witness :
    (canMakeTarget [(2 : ℚ), 3] 6 [] []).1 =
      (canMakeTarget [(3 : ℚ), 2] 6 [] []).1 :=
  claim_c5_perm_invariant [2, 3] [3, 2] 6 [] (List.Perm.swap 3 2 [])

/-- C7: for every single-element multiset `[v]` and target `t` whose
key is not already cached, the search returns `|v - t| < 1e-9` and
stores that boolean in both the transient memo and the persistent
store under the encoded key before returning. -/
theorem claim_c7_single_element (v t : ℚ) (m g : Store)
    (hg : List.lookup (encodeKey [v] t) g = none)
    (hm : List.lookup (encodeKey [v] t) m = none) :
    (canMakeTarget [v] t m g).1 = decide (|v - t| < tol) ∧
      List.lookup (encodeKey [v] t) (canMakeTarget [v] t m g).2.1 =
        some (decide (|v - t| < tol)) ∧
      List.lookup (encodeKey [v] t) (canMakeTarget [v] t m g).2.2 =
        some (decide (|v - t| < tol)) := by
  rw [canMakeTarget_eq, hg, hm]
  refine ⟨rfl, ?_, ?_⟩
  · exact lookup_mapSet_self (encodeKey [v] t) (decide (|v - t| < tol)) m
  · exact lookup_mapSet_self (encodeKey [v] t) (decide (|v - t| < tol)) g

/-- Witness for C7 at `v = 3`, `t = 3` on cold stores (so
`canReach([3], 3)` is computed, returned and cached). -/
theorem claim_c7_single_element_witness :
    ((canMakeTarget [(3 : ℚ)] 3 [] []).1 = decide (|(3 : ℚ) - 3| < tol) ∧
      List.lookup (encodeKey [(3 : ℚ)] 3) (canMakeTarget [(3 : ℚ)] 3 [] []).2.1 =
        some (decide (|(3 : ℚ) - 3| < tol)) ∧
      List.lookup (encodeKey [(3 : ℚ)] 3) (canMakeTarget [(3 : ℚ)] 3 [] []).2.2 =
        some (decide (|(3 : ℚ) - 3| < tol))) ∧
      decide (|(3 : ℚ) - 3| < tol) = true ∧ decide (|(3 : ℚ) - 4| < tol) = false :=
  ⟨claim_c7_single_element 3 3 [] [] rfl rfl, by norm_num [tol], by norm_num [tol]⟩

/-- C9: every element of `branches` (the multiset handed to a
recursive call) is exactly one element shorter than the caller's
multiset, so recursion depth is bounded by the initial multiset size
(and the search is total, as its well-founded definition shows). -/
theorem claim_c9_branch_size (ns b : List ℚ) (hb : b ∈ branches ns) :
    b.length + 1 = ns.length :=
  length_of_mem_branches ns b hb

/-- Witness for C9 at the first branch of `[2, 3]`. -/
theorem claim_c9_branch_size_witness :
    (removeTwo [(2 : ℚ), 3] 0 1 ++ [(2 : ℚ) + 3]) ∈ branches [(2 : ℚ), 3] ∧
      (removeTwo [(2 : ℚ), 3] 0 1 ++ [(2 : ℚ) + 3]).length + 1 =
        ([(2 : ℚ), 3]).length := by
  have hmem : (removeTwo [(2 : ℚ), 3] 0 1 ++ [(2 : ℚ) + 3]) ∈
      branches [(2 : ℚ), 3] := by
    refine (mem_branches_iff _ _).mpr
      ⟨0, 1, by norm_num, by norm_num, by norm_num, (2 : ℚ) + 3, ?_, rfl⟩
    show (2 : ℚ) + 3 ∈ nextVals 2 3
    exact List.mem_cons_self _ _
  exact ⟨hmem, claim_c9_branch_size [(2 : ℚ), 3] _ hmem⟩

/-- C8: the candidate derived values for an ordered pair `(a, b)` are
exactly `a+b`, `a-b`, `b-a`, `a*b`, with `a/b` present iff `b ≠ 0` and
`b/a` present iff `a ≠ 0`; concretely `nextVals 4 0 = [4, 4, -4, 0, 0]`
(no division by the zero operand, no error, no infinite value). -/
theorem claim_c8_candidates :
    (∀ a b v : ℚ, v ∈ nextVals a b ↔
      v = a + b ∨ v = a - b ∨ v = b - a ∨ v = a * b ∨
        (b ≠ 0 ∧ v = a / b) ∨ (a ≠ 0 ∧ v = b / a)) ∧
      nextVals 4 0 = [4, 4, -4, 0, 0] := by
  constructor
  · intro a b v
    by_cases hb : b = 0 <;> by_cases ha : a = 0 <;>
      simp [nextVals, hb, ha] <;> tauto
  · show nextVals 4 0 = [4, 4, -4, 0, 0]
    norm_num [nextVals]

/-- C4 (code divergence): the search performs no input validation; an
empty multiset falls through the base case and the pair loops, is
silently recorded as unreachable under the key `"|5"`, and `false` is
returned — no error is raised. -/
theorem claim_c4_empty_no_error :
    canMakeTarget [] 5 [] [] = (false, [("|5", false)], [("|5", false)]) := by
  rw [canMakeTarget_eq]
  decide

/-- C3 (code divergence): the key encoder sorts by the default
string-comparison order, so for the multiset `{2, 10}` with target `12`
the key is `"10,2|12"` (lexicographic), not the numerically sorted
`"2,10|12"` the specification asks for. -/
theorem claim_c3_lexicographic_key :
    encodeKey [2, 10] 12 = "10,2|12" ∧ encodeKey [2, 10] 12 ≠ "2,10|12" := by
  constructor <;> decide

/-- JSON string literal for a cache key.  The keys the code produces
contain no quote or backslash characters (they are numerals, `,`, `|`,
`-`, `/`), so `JSON.stringify` never needs to escape; `goodKey` states
that side condition where a theorem relies on it. -/
def quoteStr (k : String) : String := "\"" ++ k ++ "\""

def boolStr (b : Bool) : String := if b then "true" else "false"

/-- One `"key":value` member of the serialized object. -/
def fieldStr (kv : String × Bool) : String := quoteStr kv.1 ++ ":" ++ boolStr kv.2

/-- `JSON.stringify(Object.fromEntries(store))`: a single JSON object
holding the entries in order (the payload `saveCache` gzips and
writes). -/
def serializeObj (s : Store) : String :=
  "\x7b" ++ joinCommaStr (s.map fieldStr) ++ "\x7d"

/-- One loop iteration of `saveCacheStream`:
`JSON.stringify([key, val]) + "\n"`. -/
def recordLine (kv : String × Bool) : String :=
  "[" ++ quoteStr kv.1 ++ "," ++ boolStr kv.2 ++ "]" ++ "\n"

def concatStrs : List String → String
  | [] => ""
  | s :: rest => s ++ concatStrs rest

/-- The full payload written by `saveCacheStream`'s loop:
newline-delimited `[key, value]` records. -/
def serializeRecords (s : Store) : String := concatStrs (s.map recordLine)

def isJsonWs (c : Char) : Bool := c = ' ' ∨ c = '\n' ∨ c = '\t' ∨ c = '\r'

def skipWs (cs : List Char) : List Char := cs.dropWhile isJsonWs

/-- Body of a JSON string literal up to the closing quote (escape
sequences are rejected; the cache never writes any). -/
def parseStringBody : List Char → Option (List Char × List Char)
  | [] => none
  | c :: rest =>
    if c = '"' then some ([], rest)
    else if c = '\\' then none
    else (parseStringBody rest).map fun p => (c :: p.1, p.2)

def parseBoolLit : List Char → Option (Bool × List Char)
  | 't' :: 'r' :: 'u' :: 'e' :: rest => some (true, rest)
  | 'f' :: 'a' :: 'l' :: 's' :: 'e' :: rest => some (false, rest)
  | _ => none

/-- The members of a JSON object whose values are boolean literals —
the only value shape the cache ever stores.  One unit of fuel is spent
per member, so `fuel = input length` always suffices. -/
def parseFieldsAux : ℕ → List Char → Option (List (String × Bool) × List Char)
  | 0, _ => none
  | fuel + 1, cs =>
    match cs with
    | '"' :: rest =>
      match parseStringBody rest with
      | none => none
      | some (key, rest1) =>
        match rest1 with
        | ':' :: rest2 =>
          match parseBoolLit rest2 with
          | none => none
          | some (v, rest3) =>
            match rest3 with
            | ',' :: rest4 =>
              match parseFieldsAux fuel rest4 with
              | none => none
              | some (fields, rest5) => some ((String.mk key, v) :: fields, rest5)
            | '\x7d' :: rest4 => some ([(String.mk key, v)], rest4)
            | _ => none
        | _ => none
    | _ => none

/-- `JSON.parse` followed by `new Map(Object.entries(·))`, restricted
to the shapes the cache code writes.  A single JSON object with
boolean values parses to its member list, later duplicate keys
overwriting earlier ones exactly as JavaScript object construction
does.  Anything else fails: in particular a stream-saved file of two
or more newline-delimited records makes `JSON.parse` throw on the
content after the first record, so the whole load fails. -/
def parseStore (s : String) : Option Store :=
  match skipWs s.data with
  | '\x7b' :: rest =>
    match rest with
    | '\x7d' :: rest2 => if (skipWs rest2).isEmpty then some [] else none
    | _ =>
      match parseFieldsAux rest.length rest with
      | some (fields, rest2) =>
        if (skipWs rest2).isEmpty then
          some (fields.foldl (fun acc kv => mapSet kv.1 kv.2 acc) [])
        else none
      | none => none
  | _ => none

/-- `loadCache()`: a missing file leaves the cache as it was; a
parseable file replaces it; a corrupt file is caught with a warning and
leaves the cache unchanged (empty at process start). -/
def loadCacheModel (g₀ : Store) (file : Option String) : Store :=
  match file with
  | none => g₀
  | some s =>
    match parseStore s with
    | some st => st
    | none => g₀

/-- The merge loop shared by both save paths:
`for (const [k, v] of globalCache) existing.set(k, v)`. -/
def mergeStore (disk mem : Store) : Store :=
  mem.foldl (fun acc kv => mapSet kv.1 kv.2 acc) disk

/-- `saveCache()`: read and parse the existing file if present, merge
the in-memory entries over it, write the union as one JSON object; a
failure while reading/parsing is caught and nothing is written. -/
def saveCacheFile (file : Option String) (mem : Store) : Option String :=
  match file with
  | none => some (serializeObj (mergeStore [] mem))
  | some s =>
    match parseStore s with
    | some disk => some (serializeObj (mergeStore disk mem))
    | none => file

/-- `saveCacheStream()`: the same load-and-merge, with the merged
entries written as newline-delimited `[key, value]` records. -/
def saveCacheStreamFile (file : Option String) (mem : Store) : Option String :=
  match file with
  | none => some (serializeRecords (mergeStore [] mem))
  | some s =>
    match parseStore s with
    | some disk => some (serializeRecords (mergeStore disk mem))
    | none => file

inductive SaveStrategy
  | bulk
  | stream
deriving DecidableEq

/-- `if (globalCache.size < 4_000_000) saveCache(); else
saveCacheStream();` — the strategy is selected on the in-memory
store's entry count, before any merging happens. -/
def chooseSave (cacheSize : ℕ) : SaveStrategy :=
  if cacheSize < 4000000 then SaveStrategy.bulk else SaveStrategy.stream

/-- The end-of-run save exactly as the driver performs it. -/
def runEndSave (file : Option String) (mem : Store) : Option String :=
  match chooseSave mem.length with
  | SaveStrategy.bulk => saveCacheFile file mem
  | SaveStrategy.stream => saveCacheStreamFile file mem

/-- Modelled from the spec's words (§4.3 size-based strategy): the
selection rule the claim states, keyed on the unioned store's entry
count rather than the in-memory count. -/
def chooseSaveSpec (disk mem : Store) : SaveStrategy :=
  if (mergeStore disk mem).length < 4000000 then SaveStrategy.bulk
  else SaveStrategy.stream

/-- Keys that `JSON.stringify` serializes verbatim (no escaping). -/
abbrev goodKey (k : String) : Prop := '"' ∉ k.data ∧ '\\' ∉ k.data

abbrev goodStore (s : Store) : Prop := ∀ kv ∈ s, goodKey kv.1

/-- The keys are pairwise distinct — automatic for any store that came
out of a JavaScript `Map`. -/
abbrev nodupKeys (s : Store) : Prop := (s.map Prod.fst).Nodup

theorem parseStringBody_append (k : List Char) (r : List Char) (h1 : '"' ∉ k)
    (h2 : '\\' ∉ k) : parseStringBody (k ++ '"' :: r) = some (k, r) := by
  induction k with
  | nil => simp [parseStringBody]
  | cons c cs ih =>
    have hc1 : ¬(c = '"') := fun he => h1 (he ▸ List.mem_cons_self _ _)
    have hc2 : ¬(c = '\\') := fun he => h2 (he ▸ List.mem_cons_self _ _)
    have hr := ih (fun hm => h1 (List.mem_cons_of_mem _ hm))
      (fun hm => h2 (List.mem_cons_of_mem _ hm))
    simp only [List.cons_append, parseStringBody, if_neg hc1, if_neg hc2]
    show Option.map (fun p => (c :: p.1, p.2)) (parseStringBody (cs ++ '"' :: r)) =
      some (c :: cs, r)
    rw [hr]
    rfl

theorem parseBoolLit_append (v : Bool) (r : List Char) :
    parseBoolLit ((boolStr v).data ++ r) = some (v, r) := by
  cases v <;> rfl

theorem fieldStr_data (kv : String × Bool) :
    (fieldStr kv).data = '"' :: kv.1.data ++ '"' :: ':' :: (boolStr kv.2).data := by
  show (quoteStr kv.1 ++ ":" ++ boolStr kv.2).data = _
  simp only [quoteStr, data_append, List.append_assoc]
  rfl

theorem parseFieldsAux_roundtrip (s : Store) :
    ∀ (tail : List Char) (fuel : ℕ), s ≠ [] → goodStore s → s.length ≤ fuel →
      parseFieldsAux fuel ((joinCommaStr (s.map fieldStr)).data ++ '\x7d' :: tail) =
        some (s, tail) := by
  induction s with
  | nil => intro tail fuel hne; exact absurd rfl hne
  | cons kv rest ih =>
    intro tail fuel _ hgood hfuel
    have hf1 : 1 ≤ fuel :=
      le_trans (by simp only [List.length_cons]; omega) hfuel
    obtain ⟨f, rfl⟩ : ∃ f, fuel = f + 1 := ⟨fuel - 1, by omega⟩
    rcases hgood kv (List.mem_cons_self _ _) with ⟨hq, hb⟩
    cases rest with
    | nil =>
      show parseFieldsAux (f + 1) ((fieldStr kv).data ++ '\x7d' :: tail) = _
      rw [fieldStr_data]
      simp only [List.cons_append, List.append_assoc, List.cons_append,
        parseFieldsAux]
      rw [parseStringBody_append kv.1.data _ hq hb]
      simp only []
      rw [parseBoolLit_append kv.2 ('\x7d' :: tail)]
      show some ([(String.mk kv.1.data, kv.2)], tail) = some ([kv], tail)
      rfl
    | cons kv2 rest2 =>
      have hjoin : (joinCommaStr ((kv :: kv2 :: rest2).map fieldStr)).data =
          (fieldStr kv).data ++ ',' :: (joinCommaStr ((kv2 :: rest2).map fieldStr)).data := by
        show (joinCommaStr (fieldStr kv :: fieldStr kv2 :: rest2.map fieldStr)).data = _
        exact joinCommaStr_cons₂ _ _ _
      rw [hjoin, fieldStr_data]
      simp only [List.cons_append, List.append_assoc, parseFieldsAux]
      rw [parseStringBody_append kv.1.data _ hq hb]
      simp only []
      have hblit : parseBoolLit ((boolStr kv.2).data ++
          ',' :: ((joinCommaStr ((kv2 :: rest2).map fieldStr)).data ++ '\x7d' :: tail)) =
          some (kv.2, ',' :: ((joinCommaStr ((kv2 :: rest2).map fieldStr)).data ++
            '\x7d' :: tail)) := parseBoolLit_append _ _
      rw [hblit]
      simp only []
      rw [ih (tail) f (by simp) (fun p hp => hgood p (List.mem_cons_of_mem _ hp))
        (by simp only [List.length_cons] at hfuel ⊢; omega)]

theorem serializeObj_data (s : Store) :
    (serializeObj s).data =
      '\x7b' :: (joinCommaStr (s.map fieldStr)).data ++ ['\x7d'] := by
  show (("\x7b" ++ joinCommaStr (s.map fieldStr)) ++ "\x7d").data = _
  simp only [data_append]
  rfl

theorem join_fields_len (s : Store) :
    s.length ≤ (joinCommaStr (s.map fieldStr)).data.length := by
  induction s with
  | nil => simp
  | cons kv rest ih =>
    cases rest with
    | nil =>
      show ([kv] : Store).length ≤ (fieldStr kv).data.length
      rw [fieldStr_data]
      simp
    | cons kv2 rest2 =>
      have h1 : (joinCommaStr ((kv :: kv2 :: rest2).map fieldStr)).data =
          (fieldStr kv).data ++
            ',' :: (joinCommaStr ((kv2 :: rest2).map fieldStr)).data := by
        show (joinCommaStr
          (fieldStr kv :: fieldStr kv2 :: rest2.map fieldStr)).data = _
        exact joinCommaStr_cons₂ _ _ _
      rw [h1]
      simp only [List.length_cons, List.length_append] at ih ⊢
      omega

theorem mapSet_eq_append (k : String) (v : Bool) (l : Store)
    (h : k ∉ l.map Prod.fst) : mapSet k v l = l ++ [(k, v)] := by
  induction l with
  | nil => rfl
  | cons kv rest ih =>
    have hne : ¬(kv.1 = k) := by
      intro he
      exact h (by rw [← he]; exact List.mem_map.mpr ⟨kv, List.mem_cons_self _ _, rfl⟩)
    show mapSet k v ((kv.1, kv.2) :: rest) = _
    rw [mapSet, if_neg hne]
    have htail : k ∉ rest.map Prod.fst := by
      intro hm
      rcases List.mem_map.mp hm with ⟨p, hp, hpk⟩
      exact h (List.mem_map.mpr ⟨p, List.mem_cons_of_mem _ hp, hpk⟩)
    rw [ih htail]
    rfl

theorem foldl_mapSet_eq (s : Store) :
    ∀ acc : Store, nodupKeys (acc ++ s) →
      s.foldl (fun a kv => mapSet kv.1 kv.2 a) acc = acc ++ s := by
  induction s with
  | nil => intro acc _; simp
  | cons kv rest ih =>
    intro acc h
    have hk : kv.1 ∉ acc.map Prod.fst := by
      intro hmem
      have hnd : ((acc ++ kv :: rest).map Prod.fst).Nodup := h
      rw [List.map_append] at hnd
      rcases List.nodup_append.mp hnd with ⟨_, _, hdisj⟩
      exact hdisj hmem (by simp)
    rw [List.foldl_cons, mapSet_eq_append _ _ _ hk]
    have happ : (acc ++ [kv]) ++ rest = acc ++ kv :: rest := by simp
    rw [ih (acc ++ [kv]) (by show nodupKeys ((acc ++ [kv]) ++ rest); rw [happ]; exact h)]
    exact happ

theorem foldl_mapSet_nil (s : Store) (h : nodupKeys s) :
    s.foldl (fun a kv => mapSet kv.1 kv.2 a) [] = s := by
  have h0 := foldl_mapSet_eq s [] (by simpa [nodupKeys] using h)
  simpa using h0

/-- A bulk-saved store loads back exactly: the JSON-object payload
parses to the same entry list. -/
theorem parseStore_serializeObj (s : Store) (hg : goodStore s)
    (hn : nodupKeys s) : parseStore (serializeObj s) = some s := by
  cases s with
  | nil => rfl
  | cons kv rest =>
    obtain ⟨cs, hcs⟩ : ∃ cs,
        (joinCommaStr ((kv :: rest).map fieldStr)).data = '"' :: cs := by
      cases rest with
      | nil =>
        refine ⟨kv.1.data ++ '"' :: ':' :: (boolStr kv.2).data, ?_⟩
        show (fieldStr kv).data = _
        rw [fieldStr_data]
        simp
      | cons kv2 rest2 =>
        refine ⟨(kv.1.data ++ '"' :: ':' :: (boolStr kv.2).data) ++
          ',' :: (joinCommaStr ((kv2 :: rest2).map fieldStr)).data, ?_⟩
        have h1 : (joinCommaStr ((kv :: kv2 :: rest2).map fieldStr)).data =
            (fieldStr kv).data ++
              ',' :: (joinCommaStr ((kv2 :: rest2).map fieldStr)).data := by
          show (joinCommaStr
            (fieldStr kv :: fieldStr kv2 :: rest2.map fieldStr)).data = _
          exact joinCommaStr_cons₂ _ _ _
        rw [h1, fieldStr_data]
        simp
    have hlen : (kv :: rest).length ≤ ('"' :: (cs ++ ['\x7d'])).length := by
      have h2 := join_fields_len (kv :: rest)
      rw [hcs] at h2
      simp only [List.length_cons, List.length_append] at h2 ⊢
      omega
    unfold parseStore
    rw [serializeObj_data, hcs]
    show (match ('\x7b' :: ('"' :: cs) ++ ['\x7d'] : List Char) with
      | '\x7b' :: rest =>
        match rest with
        | '\x7d' :: rest2 => if (skipWs rest2).isEmpty then some [] else none
        | _ =>
          match parseFieldsAux rest.length rest with
          | some (fields, rest2) =>
            if (skipWs rest2).isEmpty then
              some (fields.foldl (fun acc kv => mapSet kv.1 kv.2 acc) [])
            else none
          | none => none
      | _ => none) = some (kv :: rest)
    show (match parseFieldsAux ('"' :: (cs ++ ['\x7d'])).length
        ('"' :: (cs ++ ['\x7d'])) with
      | some (fields, rest2) =>
        if (skipWs rest2).isEmpty then
          some (fields.foldl (fun acc kv => mapSet kv.1 kv.2 acc) [])
        else none
      | none => none) = some (kv :: rest)
    rw [show ('"' :: (cs ++ ['\x7d']) : List Char) =
      (joinCommaStr ((kv :: rest).map fieldStr)).data ++ '\x7d' :: [] from by
        rw [hcs]; simp]
    rw [parseFieldsAux_roundtrip (kv :: rest) [] _ (by simp) hg
      (by rw [hcs]; simpa using hlen)]
    show (if (skipWs []).isEmpty then
      some ((kv :: rest).foldl (fun acc kv => mapSet kv.1 kv.2 acc) []) else none) =
        some (kv :: rest)
    rw [if_pos (by rfl)]
    rw [foldl_mapSet_nil (kv :: rest) hn]

theorem mem_keys_mapSet (k k' : String) (v : Bool) (l : Store) :
    k' ∈ (mapSet k v l).map Prod.fst ↔ k' = k ∨ k' ∈ l.map Prod.fst := by
  induction l with
  | nil => simp [mapSet]
  | cons kv rest ih =>
    by_cases h : kv.1 = k
    · show k' ∈ ((if kv.1 = k then (k, v) :: rest else _).map Prod.fst) ↔ _
      rw [if_pos h]
      subst h
      simp
    · show k' ∈ ((if kv.1 = k then _ else (kv.1, kv.2) :: mapSet k v rest).map
        Prod.fst) ↔ _
      rw [if_neg h]
      simp only [List.map_cons, List.mem_cons, ih]
      tauto

theorem nodupKeys_mapSet (k : String) (v : Bool) (l : Store)
    (h : nodupKeys l) : nodupKeys (mapSet k v l) := by
  induction l with
  | nil => simp [mapSet, nodupKeys]
  | cons kv rest ih =>
    have hnd : ((kv :: rest).map Prod.fst).Nodup := h
    simp only [List.map_cons, List.nodup_cons] at hnd
    by_cases he : kv.1 = k
    · show nodupKeys ((if kv.1 = k then (k, v) :: rest else _))
      rw [if_pos he]
      show ((k, v) :: rest).map Prod.fst |>.Nodup
      simp only [List.map_cons, List.nodup_cons]
      exact ⟨he ▸ hnd.1, hnd.2⟩
    · show nodupKeys ((if kv.1 = k then _ else (kv.1, kv.2) :: mapSet k v rest))
      rw [if_neg he]
      show ((kv.1, kv.2) :: mapSet k v rest).map Prod.fst |>.Nodup
      simp only [List.map_cons, List.nodup_cons]
      refine ⟨?_, ih hnd.2⟩
      intro hmem
      rcases (mem_keys_mapSet k kv.1 v rest).mp hmem with h1 | h1
      · exact he h1
      · exact hnd.1 h1

theorem nodupKeys_mergeStore (disk mem : Store) (h : nodupKeys disk) :
    nodupKeys (mergeStore disk mem) := by
  induction mem generalizing disk with
  | nil => exact h
  | cons kv rest ih =>
    show nodupKeys (rest.foldl (fun acc kv => mapSet kv.1 kv.2 acc)
      (mapSet kv.1 kv.2 disk))
    exact ih (mapSet kv.1 kv.2 disk) (nodupKeys_mapSet _ _ _ h)

theorem goodStore_mapSet (k : String) (v : Bool) (l : Store)
    (hk : goodKey k) (h : goodStore l) : goodStore (mapSet k v l) := by
  induction l with
  | nil =>
    intro p hp
    simp only [mapSet, List.mem_singleton] at hp
    rw [hp]
    exact hk
  | cons kv rest ih =>
    intro p hp
    by_cases he : kv.1 = k
    · rw [show mapSet k v (kv :: rest) = (k, v) :: rest from by
        show (if kv.1 = k then (k, v) :: rest else _) = _
        rw [if_pos he]] at hp
      rcases List.mem_cons.mp hp with h1 | h1
      · rw [h1]; exact hk
      · exact h p (List.mem_cons_of_mem _ h1)
    · rw [show mapSet k v (kv :: rest) = (kv.1, kv.2) :: mapSet k v rest from by
        show (if kv.1 = k then _ else (kv.1, kv.2) :: mapSet k v rest) = _
        rw [if_neg he]] at hp
      rcases List.mem_cons.mp hp with h1 | h1
      · rw [h1]
        exact h kv (List.mem_cons_self _ _)
      · exact ih (fun q hq => h q (List.mem_cons_of_mem _ hq)) p h1

theorem goodStore_mergeStore (disk mem : Store) (hd : goodStore disk)
    (hm : goodStore mem) : goodStore (mergeStore disk mem) := by
  induction mem generalizing disk with
  | nil => exact hd
  | cons kv rest ih =>
    show goodStore (rest.foldl (fun acc kv => mapSet kv.1 kv.2 acc)
      (mapSet kv.1 kv.2 disk))
    exact ih (mapSet kv.1 kv.2 disk)
      (goodStore_mapSet _ _ _ (hm kv (List.mem_cons_self _ _)) hd)
      (fun q hq => hm q (List.mem_cons_of_mem _ hq))

theorem lookup_eq_none_of_notin (k : String) (l : Store)
    (h : k ∉ l.map Prod.fst) : List.lookup k l = none := by
  induction l with
  | nil => rfl
  | cons kv rest ih =>
    have hne : k ≠ kv.1 := by
      intro he
      exact h (by rw [he]; exact List.mem_map.mpr ⟨kv, List.mem_cons_self _ _, rfl⟩)
    have htail : k ∉ rest.map Prod.fst := by
      intro hm
      rcases List.mem_map.mp hm with ⟨p, hp, hpk⟩
      exact h (List.mem_map.mpr ⟨p, List.mem_cons_of_mem _ hp, hpk⟩)
    show List.lookup k ((kv.1, kv.2) :: rest) = none
    simp only [List.lookup]
    rw [show (k == kv.1) = false from beq_eq_false_iff_ne.mpr hne]
    exact ih htail

/-- Lookup in the merged store: the in-memory entries take precedence
on key collision, the disk entries answer otherwise. -/
theorem lookup_mergeStore (disk mem : Store) (hnd : nodupKeys mem) (k : String) :
    List.lookup k (mergeStore disk mem) =
      (List.lookup k mem).orElse fun _ => List.lookup k disk := by
  induction mem generalizing disk with
  | nil =>
    show List.lookup k disk = (none : Option Bool).orElse fun _ => List.lookup k disk
    rfl
  | cons kv rest ih =>
    have hnd' : (rest.map Prod.fst).Nodup := by
      have h1 : ((kv :: rest).map Prod.fst).Nodup := hnd
      simp only [List.map_cons, List.nodup_cons] at h1
      exact h1.2
    have hstep : mergeStore disk (kv :: rest) =
        mergeStore (mapSet kv.1 kv.2 disk) rest := rfl
    rw [hstep, ih (mapSet kv.1 kv.2 disk) hnd']
    by_cases he : k = kv.1
    · have hnotin : k ∉ rest.map Prod.fst := by
        have h1 : ((kv :: rest).map Prod.fst).Nodup := hnd
        simp only [List.map_cons, List.nodup_cons] at h1
        rw [he]
        exact h1.1
      rw [lookup_eq_none_of_notin k rest hnotin, he, lookup_mapSet_self]
      show some kv.2 = (List.lookup kv.1 ((kv.1, kv.2) :: rest)).orElse _
      simp only [List.lookup]
      rw [show (kv.1 == kv.1) = true from beq_self_eq_true kv.1]
      rfl
    · rw [lookup_mapSet_ne _ _ _ _ he]
      show (List.lookup k rest).orElse _ =
        (List.lookup k ((kv.1, kv.2) :: rest)).orElse _
      simp only [List.lookup]
      rw [show (k == kv.1) = false from beq_eq_false_iff_ne.mpr he]

theorem length_mapSet_ge (k : String) (v : Bool) (l : Store) :
    l.length ≤ (mapSet k v l).length := by
  induction l with
  | nil => simp [mapSet]
  | cons kv rest ih =>
    show _ ≤ (if kv.1 = k then (k, v) :: rest else (kv.1, kv.2) :: mapSet k v rest).length
    by_cases h : kv.1 = k
    · rw [if_pos h]; simp
    · rw [if_neg h]
      simp only [List.length_cons]
      omega

theorem length_mergeStore_ge (disk mem : Store) :
    disk.length ≤ (mergeStore disk mem).length := by
  induction mem generalizing disk with
  | nil => exact le_rfl
  | cons kv rest ih =>
    show disk.length ≤ (rest.foldl (fun acc kv => mapSet kv.1 kv.2 acc)
      (mapSet kv.1 kv.2 disk)).length
    exact le_trans (length_mapSet_ge kv.1 kv.2 disk) (ih (mapSet kv.1 kv.2 disk))

/-- C2: `saveCache` re-loads the on-disk store, merges the in-memory
entries over it (in-memory precedence on collision) and writes the
union back; consequently after `save A; save B` starting from no file,
a key maps to B's value when B has it and to A's value otherwise —
disjoint-union and newest-wins are both instances. -/
theorem claim_c2_save_merge (A B : Store) (hgA : goodStore A)
    (hgB : goodStore B) (hnA : nodupKeys A) (hnB : nodupKeys B) (k : String) :
    List.lookup k (loadCacheModel [] (saveCacheFile (saveCacheFile none A) B)) =
      (List.lookup k B).orElse fun _ => List.lookup k A := by
  have hA : mergeStore [] A = A := foldl_mapSet_nil A hnA
  have h1 : saveCacheFile none A = some (serializeObj A) := by
    show some (serializeObj (mergeStore [] A)) = _
    rw [hA]
  have h2 : parseStore (serializeObj A) = some A := parseStore_serializeObj A hgA hnA
  have h3 : saveCacheFile (some (serializeObj A)) B =
      some (serializeObj (mergeStore A B)) := by
    show (match parseStore (serializeObj A) with
      | some disk => some (serializeObj (mergeStore disk B))
      | none => some (serializeObj A)) = _
    rw [h2]
  have hgM : goodStore (mergeStore A B) := goodStore_mergeStore A B hgA hgB
  have hnM : nodupKeys (mergeStore A B) := nodupKeys_mergeStore A B hnA
  have h4 : parseStore (serializeObj (mergeStore A B)) = some (mergeStore A B) :=
    parseStore_serializeObj _ hgM hnM
  rw [h1, h3]
  rw [show loadCacheModel [] (some (serializeObj (mergeStore A B))) =
      mergeStore A B from by
    show (match parseStore (serializeObj (mergeStore A B)) with
      | some st => st
      | none => []) = _
    rw [h4]]
  exact lookup_mergeStore A B hnB k

/-- Witness for C2 with `A = {"a": true}`, `B = {"b": false}` at key
`"a"`: the value survives the second save. -/
theorem claim_c2_save_merge_witness :
    List.lookup "a" (loadCacheModel []
        (saveCacheFile (saveCacheFile none [("a", true)]) [("b", false)])) =
      (List.lookup "a" [("b", false)]).orElse fun _ =>
        List.lookup "a" [("a", true)] :=
  claim_c2_save_merge [("a", true)] [("b", false)] (by decide) (by decide)
    (by decide) (by decide) "a"

/-- C1 (code divergence): a store saved by the streaming path cannot
be loaded back.  The stream writes newline-delimited records, but the
loader applies `JSON.parse` to the whole payload, which fails on the
content after the first record; the failure is caught and the cache is
left empty, not equal to the saved store. -/
theorem claim_c1_stream_load_lost :
    loadCacheModel []
        (saveCacheStreamFile none [("3|3", true), ("1|2", false)]) = [] ∧
      ([("3|3", true), ("1|2", false)] : Store) ≠ [] := by
  constructor
  · rfl
  · decide

/-- A four-million-entry on-disk store, given by generation rather
than by literal: only its length matters. -/
def bigDisk : Store := (List.range 4000000).map fun i => (natToStr i, true)

/-- C6 (counterexample): with `bigDisk` on disk and a single-entry
in-memory store, the code chooses the bulk save (the in-memory count
1 is below the threshold), while choosing on the unioned store's
entry count — what the claim states — would select streaming. -/
theorem claim_c6_counterexample :
    chooseSave ([(("k" : String), true)] : Store).length = SaveStrategy.bulk ∧
      chooseSaveSpec bigDisk [("k", true)] = SaveStrategy.stream := by
  constructor
  · rfl
  · have h1 : (4000000 : ℕ) ≤ bigDisk.length := by
      show (4000000 : ℕ) ≤ ((List.range 4000000).map fun i => (natToStr i, true)).length
      rw [List.length_map, List.length_range]
    have h2 := length_mergeStore_ge bigDisk [("k", true)]
    show (if (mergeStore bigDisk [("k", true)]).length < 4000000
      then SaveStrategy.bulk else SaveStrategy.stream) = SaveStrategy.stream
    rw [if_neg (by omega)]

/-- C6 (amended): the save strategy is chosen by the in-memory store's
entry count, before merging: below 4,000,000 entries the merged store
is written as one JSON object in a single operation, otherwise the
merged entries are written as a sequence of newline-delimited records
through the compressing stream. -/
theorem claim_c6_amended (disk mem : Store) (hg : goodStore disk)
    (hn : nodupKeys disk) :
    runEndSave (some (serializeObj disk)) mem =
      some (if mem.length < 4000000 then serializeObj (mergeStore disk mem)
        else serializeRecords (mergeStore disk mem)) := by
  have hp : parseStore (serializeObj disk) = some disk :=
    parseStore_serializeObj disk hg hn
  by_cases h : mem.length < 4000000
  · rw [if_pos h]
    show (match chooseSave mem.length with
      | SaveStrategy.bulk => saveCacheFile (some (serializeObj disk)) mem
      | SaveStrategy.stream => saveCacheStreamFile (some (serializeObj disk)) mem) = _
    rw [show chooseSave mem.length = SaveStrategy.bulk from by
      show (if mem.length < 4000000 then SaveStrategy.bulk
        else SaveStrategy.stream) = _
      rw [if_pos h]]
    show (match parseStore (serializeObj disk) with
      | some d => some (serializeObj (mergeStore d mem))
      | none => some (serializeObj disk)) = _
    rw [hp]
  · rw [if_neg h]
    show (match chooseSave mem.length with
      | SaveStrategy.bulk => saveCacheFile (some (serializeObj disk)) mem
      | SaveStrategy.stream => saveCacheStreamFile (some (serializeObj disk)) mem) = _
    rw [show chooseSave mem.length = SaveStrategy.stream from by
      show (if mem.length < 4000000 then SaveStrategy.bulk
        else SaveStrategy.stream) = _
      rw [if_neg h]]
    show (match parseStore (serializeObj disk) with
      | some d => some (serializeRecords (mergeStore d mem))
      | none => some (serializeObj disk)) = _
    rw [hp]

/-- Witness for the amended C6 with an empty disk store and a
one-entry in-memory store (bulk side of the threshold). -/
theorem claim_c6_amended_witness :
    runEndSave (some (serializeObj [])) [("a", true)] =
      some (if ([(("a" : String), true)] : Store).length < 4000000
        then serializeObj (mergeStore [] [("a", true)])
        else serializeRecords (mergeStore [] [("a", true)])) :=
  claim_c6_amended [] [("a", true)] (by decide) (by decide)

theorem getD_append_self (l : List (List ℚ)) (x : List ℚ) :
    (l ++ [x]).getD l.length [] = x := by
  rw [List.getD_eq_getElem?_getD, List.getElem?_append_right le_rfl]
  simp

theorem getD_append_lt (l : List (List ℚ)) (x : List ℚ) (i : ℕ)
    (h : i < l.length) : (l ++ [x]).getD i [] = l.getD i [] := by
  rw [List.getD_eq_getElem?_getD, List.getElem?_append, if_pos h,
    ← List.getD_eq_getElem?_getD]

theorem getD_set_ne (l : List (List ℚ)) (i j : ℕ) (a : List ℚ) (h : i ≠ j) :
    (l.set i a).getD j [] = l.getD j [] := by
  rw [List.getD_eq_getElem?_getD, List.getElem?_set_ne h,
    ← List.getD_eq_getElem?_getD]

theorem getD_set_self (l : List (List ℚ)) (i : ℕ) (a : List ℚ)
    (h : i < l.length) : (l.set i a).getD i [] = a := by
  rw [List.getD_eq_getElem?_getD, List.getElem?_set_self h]
  rfl


/-- `numbers.slice().sort()` acting on the heap: allocate a fresh cell
holding a copy of cell `r`'s contents, then mutate that fresh cell in
place with the sort.  The new cell's reference is `h.length`. -/
def sliceSorted (h : List (List ℚ)) (r : ℕ) : List (List ℚ) :=
  (h ++ [h.getD r []]).set h.length (sortJS ((h ++ [h.getD r []]).getD h.length []))

/-- The cache key read off the sorted copy (cell `h.length`). -/
def heapKey (h : List (List ℚ)) (r : ℕ) (t : ℚ) : String :=
  joinCommaStr (((sliceSorted h r).getD h.length []).map ratToStr) ++ "|" ++ ratToStr t

/-- The input cell after the slice-copy has been allocated and sorted
in place: unchanged for a valid reference, empty for an out-of-range
one. -/
theorem sliceSorted_cell (h : List (List ℚ)) (r : ℕ) :
    (sliceSorted h r).getD r [] = if r < h.length then h.getD r [] else [] := by
  unfold sliceSorted
  by_cases hr : r < h.length
  · rw [if_pos hr, getD_set_ne _ _ _ _ (by omega), getD_append_lt _ _ _ hr]
  · rw [if_neg hr]
    by_cases hr' : r = h.length
    · subst hr'
      rw [getD_set_self _ _ _ (by simp), getD_append_self]
      rw [List.getD_eq_default _ _ (by omega)]
      rfl
    · rw [getD_set_ne _ _ _ _ (by omega)]
      rw [List.getD_eq_default _ _ (by simp; omega)]

theorem sliceSorted_cells (h : List (List ℚ)) (r i : ℕ) (hi : i < h.length) :
    (sliceSorted h r).getD i [] = h.getD i [] := by
  unfold sliceSorted
  rw [getD_set_ne _ _ _ _ (by omega), getD_append_lt _ _ _ hi]

theorem sliceSorted_length (h : List (List ℚ)) (r : ℕ) :
    (sliceSorted h r).length = h.length + 1 := by
  unfold sliceSorted
  rw [List.length_set, List.length_append]
  rfl

theorem heap_branch_lt (h : List (List ℚ)) (r : ℕ) (b : List ℚ)
    (hb : b ∈ branches ((sliceSorted h r).getD r [])) :
    b.length < (h.getD r []).length := by
  rw [sliceSorted_cell] at hb
  by_cases hr : r < h.length
  · rw [if_pos hr] at hb
    exact length_lt_of_mem_branches _ b hb
  · rw [if_neg hr] at hb
    simp [branches] at hb

/-- The reachability search over an explicit heap of array objects:
cell `r` holds the caller's `numbers` array.  `numbers.slice()`
allocates a fresh cell, `.sort()` mutates that fresh cell in place
(`sliceSorted`), and each `[...rest, val]` array handed to a recursive
call is a freshly allocated cell appended to the heap.  The last
component of the result is the heap after the call. -/
def canMakeTargetH (h : List (List ℚ)) (r : ℕ) (t : ℚ) (memo g : Store) :
    Bool × Store × Store × List (List ℚ) :=
  match List.lookup (heapKey h r t) g with
  | some v => (v, memo, g, sliceSorted h r)
  | none =>
    match List.lookup (heapKey h r t) memo with
    | some v => (v, memo, g, sliceSorted h r)
    | none =>
      if ((sliceSorted h r).getD r []).length = 1 then
        (decide (|((sliceSorted h r).getD r []).getD 0 0 - t| < tol),
         mapSet (heapKey h r t)
           (decide (|((sliceSorted h r).getD r []).getD 0 0 - t| < tol)) memo,
         mapSet (heapKey h r t)
           (decide (|((sliceSorted h r).getD r []).getD 0 0 - t| < tol)) g,
         sliceSorted h r)
      else
        (fun st => (st.1, mapSet (heapKey h r t) st.1 st.2.1,
            mapSet (heapKey h r t) st.1 st.2.2.1, st.2.2.2))
          ((branches ((sliceSorted h r).getD r [])).attach.foldl
            (fun acc b =>
              if acc.1 then acc
              else canMakeTargetH (acc.2.2.2 ++ [b.1]) acc.2.2.2.length t
                acc.2.1 acc.2.2.1)
            (false, memo, g, sliceSorted h r))
termination_by (h.getD r []).length
decreasing_by
  rw [show (acc.2.2.2 ++ [b.1]).getD acc.2.2.2.length [] = b.1 from
    getD_append_self _ _]
  exact heap_branch_lt h r b.1 b.2

theorem canMakeTargetH_eq (h : List (List ℚ)) (r : ℕ) (t : ℚ) (memo g : Store) :
    canMakeTargetH h r t memo g =
      match List.lookup (heapKey h r t) g with
      | some v => (v, memo, g, sliceSorted h r)
      | none =>
        match List.lookup (heapKey h r t) memo with
        | some v => (v, memo, g, sliceSorted h r)
        | none =>
          if ((sliceSorted h r).getD r []).length = 1 then
            (decide (|((sliceSorted h r).getD r []).getD 0 0 - t| < tol),
             mapSet (heapKey h r t)
               (decide (|((sliceSorted h r).getD r []).getD 0 0 - t| < tol)) memo,
             mapSet (heapKey h r t)
               (decide (|((sliceSorted h r).getD r []).getD 0 0 - t| < tol)) g,
             sliceSorted h r)
          else
            (fun st => (st.1, mapSet (heapKey h r t) st.1 st.2.1,
                mapSet (heapKey h r t) st.1 st.2.2.1, st.2.2.2))
              ((branches ((sliceSorted h r).getD r [])).attach.foldl
                (fun acc b =>
                  if acc.1 then acc
                  else canMakeTargetH (acc.2.2.2 ++ [b.1]) acc.2.2.2.length t
                    acc.2.1 acc.2.2.1)
                (false, memo, g, sliceSorted h r)) := by
  rw [canMakeTargetH]

theorem foldl_searchH_stop (ns : List ℚ) (t : ℚ) :
    ∀ (bs : List {x // x ∈ branches ns})
      (p : Bool × Store × Store × List (List ℚ)), p.1 = true →
      bs.foldl
        (fun acc b =>
          if acc.1 then acc
          else canMakeTargetH (acc.2.2.2 ++ [b.1]) acc.2.2.2.length t
            acc.2.1 acc.2.2.1)
        p = p := by
  intro bs
  induction bs with
  | nil => intro p _; rfl
  | cons b rest ih =>
    intro p hp
    rw [List.foldl_cons, if_pos hp]
    exact ih p hp

theorem canMakeTargetH_frame_step (h : List (List ℚ)) (r : ℕ) (t : ℚ)
    (IH : ∀ b : List ℚ, b ∈ branches ((sliceSorted h r).getD r []) →
      ∀ (hp : List (List ℚ)) (m g : Store),
        (hp ++ [b]).length ≤
          (canMakeTargetH (hp ++ [b]) hp.length t m g).2.2.2.length ∧
        ∀ i, i < (hp ++ [b]).length →
          (canMakeTargetH (hp ++ [b]) hp.length t m g).2.2.2.getD i [] =
            (hp ++ [b]).getD i []) :
    ∀ (m g : Store),
      h.length ≤ (canMakeTargetH h r t m g).2.2.2.length ∧
        ∀ i, i < h.length →
          (canMakeTargetH h r t m g).2.2.2.getD i [] = h.getD i [] := by
  intro m g
  rw [canMakeTargetH_eq]
  cases hg : List.lookup (heapKey h r t) g with
  | some v =>
    refine ⟨?_, ?_⟩
    · show h.length ≤ (sliceSorted h r).length
      rw [sliceSorted_length]
      omega
    · intro i hi
      exact sliceSorted_cells h r i hi
  | none =>
    cases hm : List.lookup (heapKey h r t) m with
    | some v =>
      refine ⟨?_, ?_⟩
      · show h.length ≤ (sliceSorted h r).length
        rw [sliceSorted_length]
        omega
      · intro i hi
        exact sliceSorted_cells h r i hi
    | none =>
      by_cases hl1 : ((sliceSorted h r).getD r []).length = 1
      · rw [if_pos hl1]
        refine ⟨?_, ?_⟩
        · show h.length ≤ (sliceSorted h r).length
          rw [sliceSorted_length]
          omega
        · intro i hi
          exact sliceSorted_cells h r i hi
      · rw [if_neg hl1]
        have hfold : ∀ (bs : List {x // x ∈ branches ((sliceSorted h r).getD r [])})
            (p : Bool × Store × Store × List (List ℚ)),
            h.length ≤ p.2.2.2.length →
            (∀ i, i < h.length → p.2.2.2.getD i [] = h.getD i []) →
            h.length ≤ (bs.foldl
                (fun acc b =>
                  if acc.1 then acc
                  else canMakeTargetH (acc.2.2.2 ++ [b.1]) acc.2.2.2.length t
                    acc.2.1 acc.2.2.1) p).2.2.2.length ∧
              ∀ i, i < h.length → (bs.foldl
                (fun acc b =>
                  if acc.1 then acc
                  else canMakeTargetH (acc.2.2.2 ++ [b.1]) acc.2.2.2.length t
                    acc.2.1 acc.2.2.1) p).2.2.2.getD i [] = h.getD i [] := by
          intro bs
          induction bs with
          | nil =>
            intro p hl hc
            exact ⟨hl, hc⟩
          | cons b rest ihb =>
            intro p hl hc
            rw [List.foldl_cons]
            by_cases hacc : p.1 = true
            · rw [if_pos hacc]
              exact ihb p hl hc
            · rw [if_neg hacc]
              rcases IH b.1 b.2 p.2.2.2 p.2.1 p.2.2.1 with ⟨hlen', hcells'⟩
              refine ihb _ ?_ ?_
              · have happ : (p.2.2.2 ++ [b.1]).length = p.2.2.2.length + 1 := by simp
                omega
              · intro i hi
                rw [hcells' i (by simp only [List.length_append]; omega)]
                rw [getD_append_lt _ _ _ (by omega)]
                exact hc i hi
        rcases hfold (branches ((sliceSorted h r).getD r [])).attach
            (false, m, g, sliceSorted h r)
            (by show h.length ≤ (sliceSorted h r).length
                rw [sliceSorted_length]; omega)
            (by intro i hi
                show (sliceSorted h r).getD i [] = h.getD i []
                exact sliceSorted_cells h r i hi) with ⟨hl2, hc2⟩
        exact ⟨hl2, hc2⟩

theorem canMakeTargetH_frame :
    ∀ (n : ℕ) (h : List (List ℚ)) (r : ℕ) (t : ℚ) (m g : Store),
      (h.getD r []).length ≤ n →
      h.length ≤ (canMakeTargetH h r t m g).2.2.2.length ∧
        ∀ i, i < h.length →
          (canMakeTargetH h r t m g).2.2.2.getD i [] = h.getD i [] := by
  intro n
  induction n with
  | zero =>
    intro h r t m g hlen
    refine canMakeTargetH_frame_step h r t ?_ m g
    intro b hb
    exfalso
    have := heap_branch_lt h r b hb
    omega
  | succ n ih =>
    intro h r t m g hlen
    refine canMakeTargetH_frame_step h r t ?_ m g
    intro b hb hp m' g'
    have hble : b.length ≤ n := by
      have := heap_branch_lt h r b hb
      omega
    exact ih (hp ++ [b]) hp.length t m' g' (by rw [getD_append_self]; exact hble)

/-- C10: the search never mutates its input array.  In the heap model
— where `slice` and the sub-multiset constructions allocate fresh
cells and `sort` mutates its receiver in place — the caller's cell
holds the same elements in the same order after the call returns:
sorting happened on the slice copy, and every `[...rest, val]` is a
new allocation. -/
theorem claim_c10_input_not_mutated (h : List (List ℚ)) (r : ℕ) (t : ℚ)
    (m g : Store) (hr : r < h.length) :
    (canMakeTargetH h r t m g).2.2.2.getD r [] = h.getD r [] :=
  (canMakeTargetH_frame (h.getD r []).length h r t m g le_rfl).2 r hr

/-- Witness for C10: a one-cell heap holding `[3]`, searched for
target `3`, leaves the input cell untouched. -/
theorem claim_c10_input_not_mutated_witness :
    (canMakeTargetH [[(3 : ℚ)]] 0 3 [] []).2.2.2.getD 0 [] =
      [[(3 : ℚ)]].getD 0 [] :=
  claim_c10_input_not_mutated [[(3 : ℚ)]] 0 3 [] [] (by decide)
